import Mathlib

/-!
Verification development for the chirp3-karaoke lyric timing and scoring
engine.  The definitions below are shallow embeddings of the Python code in
`main.py` (text normalisation, sequence alignment via `difflib`, advanced
scoring) and `setup_music.py` (LRC parsing, word-timing synthesis).  Machine
floats are modelled as exact rationals, Python strings character-by-character.
-/

set_option maxHeartbeats 4000000
set_option maxRecDepth 8000

namespace Karaoke

/-! Character-level models of the Python string operations used by the code. -/

/-- Python `str.lower()` restricted to ASCII case mapping. -/
def pyLower (s : String) : String := String.mk (s.toList.map Char.toLower)

/-- Python `str.split()` (no argument): split on runs of whitespace, dropping
empty tokens.  `cur` accumulates the current token in reverse. -/
def pySplitAux : List Char → List Char → List String
  | [], cur => if cur = [] then [] else [String.mk cur.reverse]
  | c :: rest, cur =>
    if c.isWhitespace then
      if cur = [] then pySplitAux rest []
      else String.mk cur.reverse :: pySplitAux rest []
    else pySplitAux rest (c :: cur)

/-- Python `str.split()` with no separator argument. -/
def pySplit (s : String) : List String := pySplitAux s.toList []

/-- Python `str.strip()`: remove leading and trailing whitespace. -/
def pyStrip (s : String) : String :=
  String.mk (((s.toList.dropWhile Char.isWhitespace).reverse.dropWhile
    Char.isWhitespace).reverse)

/-- Python `str.split('\n')`: split at every newline, keeping empty pieces. -/
def splitNlAux : List Char → List (List Char)
  | [] => [[]]
  | c :: rest =>
    match splitNlAux rest with
    | [] => if c = '\n' then [[], []] else [[c]]
    | t :: ts => if c = '\n' then [] :: t :: ts else (c :: t) :: ts

/-- Python `str.split('\n')` on a `String`. -/
def pySplitLines (s : String) : List String := (splitNlAux s.toList).map String.mk

/-- Python `re.sub(r'[^\w\s]', '', t)`: keep only word characters
(ASCII alphanumerics and underscore) and whitespace. -/
def stripPunct (s : String) : String :=
  String.mk (s.toList.filter (fun c => c.isAlphanum || c = '_' || c.isWhitespace))

/-! `main.py`: text normalisation (`normalize_text`). -/

/-- Substitution table from `normalize_text` in `main.py`. -/
def replacements : List (String × String) :=
  [("gonna", "going to"), ("wanna", "want to"), ("cause", "because"),
   ("cos", "because"), ("em", "them"), ("walkin", "walking"),
   ("talkin", "talking"), ("runnin", "running"), ("singin", "singing"),
   ("nothin", "nothing"), ("im", "i am"), ("youre", "you are"),
   ("cant", "cannot"), ("dont", "do not"), ("wont", "will not")]

/-- Embedding of `normalize_text` from `main.py`: lowercase, strip
punctuation, split on whitespace and apply the substitution table token by
token (`replacements.get(w, w)`). -/
def normalize_text (text : String) : List String :=
  let t := pyLower text
  let t := stripPunct t
  let words := pySplit t
  words.map (fun w => ((replacements.lookup w).getD w))

/-! Sanity examples (removed facts are proved later; these are theorems so the
file stays free of commands). -/

theorem pySplit_example : pySplit "  hi   ho " = ["hi", "ho"] := by decide

theorem normalize_example : normalize_text "Im gonna SING!" = ["i am", "going to", "sing"] := by
  decide

/-! Embedding of `difflib.SequenceMatcher(None, a, b)` (CPython), which
`calculate_score_advanced` uses for word alignment.  With `isjunk=None` the
junk set `bjunk` is empty, so `isbjunk` is constantly false: the first pair of
extension loops in `find_longest_match` tests only element equality and the
second ("junk") pair never fires and is omitted.  Autojunk is kept: elements of
`b` are "popular" when `len(b) >= 200` and they occur more than
`len(b) // 100 + 1` times; popular elements are purged from `b2j`. -/

/-- A matching block `(i, j, size)` as returned by `find_longest_match`. -/
structure FMatch where
  i : Nat
  j : Nat
  size : Nat
deriving Repr, DecidableEq

/-- Autojunk predicate of `SequenceMatcher.__chain_b`: with `isjunk=None`,
an element is dropped from `b2j` iff `len(b) >= 200` and it is popular. -/
def isPopular (b : List String) (x : String) : Bool :=
  decide (200 ≤ b.length) && decide (b.length / 100 + 1 < b.count x)

/-- Validity of one link of a `j2len` chain at `(i, j)`: `j` lies in
`b2j.get(a[i])` restricted to `[blo, bhi)` and row `i` is in `[alo, ahi)`.
Membership `j ∈ b2j[a[i]]` means `b[j] = a[i]` with `a[i]` not purged as
popular. -/
def chainOk (a b : List String) (pop : String → Bool) (alo blo ahi bhi i j : Nat) : Prop :=
  alo ≤ i ∧ i < ahi ∧ blo ≤ j ∧ j < bhi ∧
    a.getD i "" = b.getD j "" ∧ pop (b.getD j "") = false

instance (a b : List String) (pop : String → Bool) (alo blo ahi bhi i j : Nat) :
    Decidable (chainOk a b pop alo blo ahi bhi i j) := by
  unfold chainOk; infer_instance

/-- Value `newj2len[j]` computed at row `i` of `find_longest_match`'s main
loop: the length of the common-suffix chain ending at `(i, j)`.  `j2len.get
(j-1, 0)` returns `0` exactly when the previous cell carried no valid chain
link, which is the `chainOk` failure case. -/
def chainLen (a b : List String) (pop : String → Bool) (alo blo ahi bhi : Nat) :
    Nat → Nat → Nat
  | 0, j => if chainOk a b pop alo blo ahi bhi 0 j then 1 else 0
  | (i+1), j =>
    if chainOk a b pop alo blo ahi bhi (i+1) j then
      (if i + 1 = alo ∨ j = blo then 1 else chainLen a b pop alo blo ahi bhi i (j-1) + 1)
    else 0

/-- One candidate step of the main loop: update the best match when the chain
ending at `(i, j)` is strictly longer (`if k > bestsize`). -/
def fStep (a b : List String) (pop : String → Bool) (alo blo ahi bhi : Nat)
    (s : FMatch) (i j : Nat) : FMatch :=
  let k := chainLen a b pop alo blo ahi bhi i j
  if s.size < k then ⟨i + 1 - k, j + 1 - k, k⟩ else s

/-- Main double loop of `find_longest_match` (`for i in range(alo, ahi): for j
in b2j.get(a[i], [])`), starting from `besti, bestj, bestsize = alo, blo, 0`.
Columns `j` outside `b2j.get(a[i])` have `chainLen = 0` and can never win,
so iterating over all of `[blo, bhi)` is equivalent. -/
def phase1 (a b : List String) (pop : String → Bool) (alo ahi blo bhi : Nat) : FMatch :=
  (List.range' alo (ahi - alo)).foldl
    (fun s i =>
      (List.range' blo (bhi - blo)).foldl (fun s j => fStep a b pop alo blo ahi bhi s i j) s)
    ⟨alo, blo, 0⟩

/-- Backward extension loop: `while besti > alo and bestj > blo and
a[besti-1] == b[bestj-1]` (the `isbjunk` test is constantly false).  The
recursion is structural in `besti`, which the loop decrements. -/
def extendBack (a b : List String) (alo blo : Nat) : Nat → Nat → Nat → FMatch
  | 0, j, k => ⟨0, j, k⟩
  | (i+1), j, k =>
    if alo < i + 1 ∧ blo < j ∧ a.getD i "" = b.getD (j - 1) "" then
      extendBack a b alo blo i (j - 1) (k + 1)
    else ⟨i + 1, j, k⟩

/-- Forward extension loop with explicit fuel; called with fuel
`ahi - (i + k)`, which is exactly the number of iterations the guard
`besti+bestsize < ahi` can still allow, so the fuel never runs out early. -/
def extendFwdF (a b : List String) (ahi bhi i j : Nat) : Nat → Nat → FMatch
  | 0, k => ⟨i, j, k⟩
  | (fuel+1), k =>
    if i + k < ahi ∧ j + k < bhi ∧ a.getD (i + k) "" = b.getD (j + k) "" then
      extendFwdF a b ahi bhi i j fuel (k + 1)
    else ⟨i, j, k⟩

/-- Forward extension loop: `while besti+bestsize < ahi and bestj+bestsize <
bhi and a[besti+bestsize] == b[bestj+bestsize]`. -/
def extendFwd (a b : List String) (ahi bhi i j k : Nat) : FMatch :=
  extendFwdF a b ahi bhi i j (ahi - (i + k)) k

/-- Embedding of `SequenceMatcher.find_longest_match(alo, ahi, blo, bhi)` with
`isjunk=None`: main loop, then the two element-equality extension loops (the
junk-extension loops are no-ops since `bjunk` is empty). -/
def find_longest_match (a b : List String) (pop : String → Bool)
    (alo ahi blo bhi : Nat) : FMatch :=
  let m := phase1 a b pop alo ahi blo bhi
  let m2 := extendBack a b alo blo m.i m.j m.size
  extendFwd a b ahi bhi m2.i m2.j m2.size

/-- Recursive collection of matching blocks (the explicit queue in
`get_matching_blocks` explores exactly these sub-ranges; the in-order
recursion produces the blocks already position-sorted, matching the
`matching_blocks.sort()` call).  `fuel` bounds the recursion depth; the top
call supplies more fuel than the ranges can consume. -/
def matchingBlocksRec (a b : List String) (pop : String → Bool) :
    Nat → Nat → Nat → Nat → Nat → List FMatch
  | 0, _, _, _, _ => []
  | (fuel+1), alo, ahi, blo, bhi =>
    let m := find_longest_match a b pop alo ahi blo bhi
    if m.size = 0 then []
    else
      matchingBlocksRec a b pop fuel alo m.i blo m.j ++ [m] ++
        matchingBlocksRec a b pop fuel (m.i + m.size) ahi (m.j + m.size) bhi

/-- Adjacent-block merge loop of `get_matching_blocks`, starting from
`i1 = j1 = k1 = 0`, followed by the `(la, lb, 0)` sentinel. -/
def mergeGo (la lb : Nat) : List FMatch → Nat → Nat → Nat → List FMatch
  | [], i1, j1, k1 => (if k1 ≠ 0 then [⟨i1, j1, k1⟩] else []) ++ [⟨la, lb, 0⟩]
  | ⟨i2, j2, k2⟩ :: rest, i1, j1, k1 =>
    if i1 + k1 = i2 ∧ j1 + k1 = j2 then mergeGo la lb rest i1 j1 (k1 + k2)
    else (if k1 ≠ 0 then [⟨i1, j1, k1⟩] else []) ++ mergeGo la lb rest i2 j2 k2

/-- Embedding of `SequenceMatcher.get_matching_blocks()`. -/
def get_matching_blocks (a b : List String) (pop : String → Bool) : List FMatch :=
  let blocks := matchingBlocksRec a b pop (a.length + b.length + 1) 0 a.length 0 b.length
  mergeGo a.length b.length blocks 0 0 0

/-- Opcode tags produced by `SequenceMatcher.get_opcodes()`. -/
inductive OpTag where
  | equal
  | replace
  | insert
  | delete
deriving Repr, DecidableEq

/-- One opcode `(tag, i1, i2, j1, j2)`. -/
structure Opcode where
  tag : OpTag
  i1 : Nat
  i2 : Nat
  j1 : Nat
  j2 : Nat
deriving Repr, DecidableEq

/-- Loop body of `get_opcodes`: walk the matching blocks with a cursor
`(i, j)`, emitting a gap opcode and then an `equal` opcode per block. -/
def opcodesGo : List FMatch → Nat → Nat → List Opcode
  | [], _, _ => []
  | ⟨ai, bj, size⟩ :: rest, i, j =>
    (if i < ai ∧ j < bj then [⟨.replace, i, ai, j, bj⟩]
     else if i < ai then [⟨.delete, i, ai, j, bj⟩]
     else if j < bj then [⟨.insert, i, ai, j, bj⟩]
     else []) ++
    (if size ≠ 0 then [⟨.equal, ai, ai + size, bj, bj + size⟩] else []) ++
    opcodesGo rest (ai + size) (bj + size)

/-- Embedding of `SequenceMatcher(None, a, b).get_opcodes()`, including the
autojunk popularity predicate computed from `b`. -/
def get_opcodes (a b : List String) : List Opcode :=
  opcodesGo (get_matching_blocks a b (isPopular b)) 0 0

theorem opcodes_example :
    get_opcodes ["we", "x", "q"] ["we", "a"] =
      [⟨.equal, 0, 1, 0, 1⟩, ⟨.replace, 1, 3, 1, 2⟩] := by decide

/-! `main.py`: the advanced scoring engine (`calculate_score_advanced`).
The HTML spans are modelled by their CSS class:
`green`    = `text-green-400 font-bold` (equal hits and >0.85 similarity),
`yellow`   = `text-yellow-400 font-bold` (0.70 < similarity <= 0.85),
`redStrike`= `text-red-500 line-through opacity-50` (wrong word),
`redExtra` = `text-red-500 text-xs opacity-50` (extra word sung),
`gray`     = `text-gray-600 opacity-30` (missing lyrics, one span per run,
whose text is the joined missing words).
The Jaro-Winkler similarity supplied by the external `jellyfish` library is a
parameter `sim` of the engine. -/

/-- CSS class of an output span. -/
inductive Tag where
  | green
  | yellow
  | redStrike
  | redExtra
  | gray
deriving Repr, DecidableEq

/-- One annotated output span. -/
structure Span where
  tag : Tag
  text : String
deriving Repr, DecidableEq

/-- The comparison returned by the engine: the raw user text on the empty
target early return, otherwise the joined span list. -/
inductive Comparison where
  | raw (s : String)
  | spans (l : List Span)
deriving Repr, DecidableEq

/-- Python slice `l[a:b]`. -/
def sliceL (l : List String) (a b : Nat) : List String := (l.drop a).take (b - a)

/-- Body of the `replace` loop in `calculate_score_advanced` for one index
`idx` of `range(max(len(user_segment), len(target_segment)))`: out-of-range
tokens read as `""`, pairs with both tokens credit via the similarity
thresholds, a leftover user token is annotated as extra, and a leftover
target token produces nothing (the code's `# Missing words handled in next
block` comment notwithstanding). -/
def replaceStep (sim : String → String → ℚ) (us ts : List String)
    (acc : ℚ × List Span) (idx : Nat) : ℚ × List Span :=
  let uWord := us.getD idx ""
  let tWord := ts.getD idx ""
  if uWord ≠ "" ∧ tWord ≠ "" then
    let similarity := sim uWord tWord
    if 17/20 < similarity then (acc.1 + 1, acc.2 ++ [⟨.green, uWord⟩])
    else if 7/10 < similarity then (acc.1 + 4/5, acc.2 ++ [⟨.yellow, uWord⟩])
    else (acc.1, acc.2 ++ [⟨.redStrike, uWord⟩])
  else if uWord ≠ "" then (acc.1, acc.2 ++ [⟨.redExtra, uWord⟩])
  else acc

/-- Credit and spans contributed by one `replace` opcode:
`for idx in range(max(len(user_segment), len(target_segment)))`. -/
def processReplace (sim : String → String → ℚ) (us ts : List String) : ℚ × List Span :=
  (List.range (max us.length ts.length)).foldl (replaceStep sim us ts) (0, [])

/-- Processing of one opcode of the alignment, accumulating the weighted
score and the annotated spans exactly as the `for tag, i1, i2, j1, j2`
loop does. -/
def processOpcode (sim : String → String → ℚ) (userWords targetWords : List String)
    (acc : ℚ × List Span) (op : Opcode) : ℚ × List Span :=
  match op.tag with
  | .equal =>
    (sliceL userWords op.i1 op.i2).foldl
      (fun a w => (a.1 + 1, a.2 ++ [⟨.green, w⟩])) acc
  | .replace =>
    let r := processReplace sim (sliceL userWords op.i1 op.i2) (sliceL targetWords op.j1 op.j2)
    (acc.1 + r.1, acc.2 ++ r.2)
  | .insert =>
    (acc.1, acc.2 ++ [⟨.gray, " ".intercalate (sliceL targetWords op.j1 op.j2)⟩])
  | .delete =>
    (sliceL userWords op.i1 op.i2).foldl
      (fun a w => (a.1, a.2 ++ [⟨.redExtra, w⟩])) acc

/-- The opcode loop of `calculate_score_advanced`: weighted score and spans. -/
def scoreSpans (sim : String → String → ℚ) (userWords targetWords : List String) :
    ℚ × List Span :=
  (get_opcodes userWords targetWords).foldl (processOpcode sim userWords targetWords) (0, [])

/-- Python `int()` applied to a rational: truncation toward zero. -/
def pyTrunc (q : ℚ) : ℤ := if 0 ≤ q then ⌊q⌋ else -⌊-q⌋

/-- Embedding of `calculate_score_advanced(user_text, official_text)` from
`main.py`, parameterised by the external string-similarity function `sim`
(`jellyfish.jaro_winkler_similarity`). -/
def calculate_score_advanced (sim : String → String → ℚ)
    (userText officialText : String) : ℤ × Comparison :=
  let userWords := normalize_text userText
  let targetWords := normalize_text officialText
  if targetWords = [] then (0, .raw userText)
  else
    let r := scoreSpans sim userWords targetWords
    let weightedScore := r.1
    let totalPossible : ℚ := targetWords.length
    let finalScore : ℤ :=
      if 0 < totalPossible then pyTrunc (weightedScore / totalPossible * 100) else 0
    let finalScore : ℤ :=
      if finalScore < 50 ∧ 0 < userWords.length ∧
          (4/5 : ℚ) < (userWords.length : ℚ) / (targetWords.length : ℚ) ∧
          ((userWords.length : ℚ) / (targetWords.length : ℚ)) < 6/5 then
        finalScore + 10
      else finalScore
    (min 100 finalScore, .spans r.2)

theorem score_example :
    (calculate_score_advanced (fun _ _ => 0) "we wish you" "we wish you").1 = 100 := by
  with_unfolding_all decide

/-! `setup_music.py`: LRC parsing (`parse_lrc`). -/

/-- One parsed lyric line `{"time": ts, "text": text}`. -/
structure LyricLine where
  time : ℚ
  text : String
deriving Repr, DecidableEq

/-- Numeric value of an ASCII digit. -/
def dv (c : Char) : Nat := c.toNat - 48

/-- Greedy match of `(\d{2,3})\]` from the regex `\[(\d{2}):(\d{2})\.(\d{2,3})\]`:
try three digits followed by `]`, else backtrack to two digits followed by
`]`.  Returns the fraction as a rational (`float(f"0.{frac}")`) and the
remaining characters (the `(.*)` group). -/
def parseFrac : List Char → Option (ℚ × List Char)
  | c1 :: c2 :: rest =>
    if c1.isDigit ∧ c2.isDigit then
      match rest with
      | c3 :: c4 :: tail =>
        if c4 = ']' ∧ c3.isDigit then
          some (((dv c1 * 100 + dv c2 * 10 + dv c3 : ℕ) : ℚ) / 1000, tail)
        else if c3 = ']' then
          some (((dv c1 * 10 + dv c2 : ℕ) : ℚ) / 100, c4 :: tail)
        else none
      | [c3] =>
        if c3 = ']' then some (((dv c1 * 10 + dv c2 : ℕ) : ℚ) / 100, []) else none
      | [] => none
    else none
  | _ => none

/-- Anchored match of `\[(\d{2}):(\d{2})\.(\d{2,3})\](.*)` on the character
list of a line, returning the timestamp `int(MM)*60 + int(SS) +
float("0."+frac)` and the rest of the line. -/
def matchLrcCore : List Char → Option (ℚ × String)
  | lb :: m1 :: m2 :: co :: s1 :: s2 :: dot :: rest =>
    if lb = '[' ∧ m1.isDigit ∧ m2.isDigit ∧ co = ':' ∧ s1.isDigit ∧ s2.isDigit ∧ dot = '.' then
      match parseFrac rest with
      | some (frac, tail) =>
        some (((dv m1 * 10 + dv m2 : ℕ) : ℚ) * 60 + ((dv s1 * 10 + dv s2 : ℕ) : ℚ) + frac,
          String.mk tail)
      | none => none
    else none
  | _ => none

/-- Anchored regex match on one line (`regex.match(line)`). -/
def matchLrc (line : String) : Option (ℚ × String) := matchLrcCore line.toList

/-- Per-line loop body of `parse_lrc`: lines whose stripped trailing text is
non-empty produce a `LyricLine`. -/
def parse_lrc_lines : List String → List LyricLine
  | [] => []
  | line :: rest =>
    match matchLrc line with
    | some (ts, text) =>
      let t := pyStrip text
      if t ≠ "" then ⟨ts, t⟩ :: parse_lrc_lines rest else parse_lrc_lines rest
    | none => parse_lrc_lines rest

/-- Embedding of `parse_lrc(lrc_text)` from `setup_music.py`. -/
def parse_lrc (lrcText : String) : List LyricLine :=
  parse_lrc_lines (pySplitLines lrcText)

theorem parse_lrc_example :
    parse_lrc "[00:04.10] We wish\nno tag\n[00:06.905]   \n[01:02.05]x" =
      [⟨41/10, "We wish"⟩, ⟨62 + 5/100, "x"⟩] := by with_unfolding_all decide

/-! `setup_music.py`: word weights and word-timing synthesis. -/

/-- Weight of one word in `calculate_word_weights`: `weight = len(word)`
scaled by the rhythm-heuristic band multipliers. -/
def wordWeight (w : String) : ℚ :=
  if w.length ≤ 2 then (w.length : ℚ) * (3/5)
  else if w.length ≤ 4 then (w.length : ℚ) * (9/10)
  else if 8 ≤ w.length then (w.length : ℚ) * (6/5)
  else (w.length : ℚ)

/-- Embedding of `calculate_word_weights(words)`: the per-word weights and
their total. -/
def calculate_word_weights (words : List String) : List ℚ × ℚ :=
  let weights := words.map wordWeight
  (weights, weights.sum)

/-- Python `round(q, 2)` modelled over exact rationals.  (`Mathlib.round`
rounds halves up rather than to even; the two agree off exact midpoints,
and every fact proved below about concrete inputs avoids midpoints.) -/
def round2 (q : ℚ) : ℚ := ((round (q * 100) : ℤ) : ℚ) / 100

/-- One word timing `{"text": w, "start": s, "end": e}`; the Python key
`end` is a Lean keyword, rendered here as `endTime`. -/
structure WordTiming where
  text : String
  start : ℚ
  endTime : ℚ
deriving Repr, DecidableEq

/-- One `lyrics_map` entry. -/
structure MapEntry where
  time : ℚ
  text : String
  words : List WordTiming
deriving Repr, DecidableEq

/-- Inner word loop shared verbatim by both timing modes: walk the
`(word, weight)` pairs with a running cursor, storing 2-decimal rounded
`start`/`end` values and advancing the cursor by the unrounded duration.
Returns the words list and the final cursor (`word_cursor`). -/
def buildWords (tpu : ℚ) : List (String × ℚ) → ℚ → List WordTiming × ℚ
  | [], cursor => ([], cursor)
  | (w, wt) :: rest, cursor =>
    let wDur := wt * tpu
    let r := buildWords tpu rest (cursor + wDur)
    (⟨w, round2 cursor, round2 (cursor + wDur)⟩ :: r.1, r.2)

/-- Body of the per-line loop of `generate_lyrics_map` for one line with its
time gap: returns the map entry and the final `word_cursor`. -/
def processLine (line : LyricLine) (timeGap : ℚ) : MapEntry × ℚ :=
  let words := pySplit line.text
  let estimatedNeededTime : ℚ := (line.text.length : ℚ) * (3/20)
  let lineDuration := min timeGap (estimatedNeededTime + 1)
  let ww := calculate_word_weights words
  let totalWeight := if ww.2 = 0 then 1 else ww.2
  let timePerWeightUnit := lineDuration / totalWeight
  let r := buildWords timePerWeightUnit (words.zip ww.1) line.time
  (⟨round2 line.time, line.text, r.1⟩, r.2)

/-- Line loop of `generate_lyrics_map`: the time gap is the next line's start
minus this line's (4.0 s for the final line); lines with no words are
skipped (`if not words: continue`). -/
def lyricsLines : List LyricLine → List MapEntry
  | [] => []
  | line :: rest =>
    let timeGap : ℚ :=
      match rest with
      | next :: _ => next.time - line.time
      | [] => 4
    if pySplit line.text = [] then lyricsLines rest
    else (processLine line timeGap).1 :: lyricsLines rest

/-- The `GENERIC_LYRICS` constant of `setup_music.py`. -/
def GENERIC_LYRICS : String :=
  "[00:10.00] (Instrumental Intro)\n[00:15.00] Get ready to sing...\n[00:20.00] (Waiting for lyrics...)\n[00:25.00] Feel the rhythm!\n[00:30.00] Sing your heart out!"

/-- Python truthiness of the optional `duration` argument
(`if not parsed_lines and duration:`): `None` and `0.0` are falsy. -/
def durationTruthy : Option ℚ → Bool
  | none => false
  | some d => d ≠ 0

/-- Heuristic-mode input lines:
`[l.strip() for l in text_block.split('\n') if l.strip()]`. -/
def heuristicInputLines (textBlock : String) : List String :=
  ((pySplitLines textBlock).map pyStrip).filter (fun l => l ≠ "")

/-- Per-line distribution of the heuristic mode for one line starting at a
cursor: the fixed `LINE_GAP` is 1.0 s and the per-unit time is
`(avg_line_dur - LINE_GAP) / total_weight`.  Returns the entry and the final
`word_cursor`. -/
def heuristicLine (avgLineDur : ℚ) (line : String) (currentTime : ℚ) : MapEntry × ℚ :=
  let words := pySplit line
  let ww := calculate_word_weights words
  let totalWeight := if ww.2 = 0 then 1 else ww.2
  let timePerUnit := (avgLineDur - 1) / totalWeight
  let r := buildWords timePerUnit (words.zip ww.1) currentTime
  (⟨round2 currentTime, line, r.1⟩, r.2)

/-- Line loop of `generate_heuristic_map`: the cursor starts at the intro
offset and advances past each line's words plus the 1.0 s gap. -/
def heuristicLines (avgLineDur : ℚ) : List String → ℚ → List MapEntry
  | [], _ => []
  | line :: rest, currentTime =>
    let r := heuristicLine avgLineDur line currentTime
    r.1 :: heuristicLines avgLineDur rest (r.2 + 1)

/-- Embedding of `generate_heuristic_map(text_block, duration)`:
`INTRO_OFFSET = 8.0`, `VOCAL_END = duration * 0.95`, the available time is
split evenly over `max(1, len(lines))` lines. -/
def generate_heuristic_map (textBlock : String) (duration : ℚ) :
    String × List MapEntry × ℚ :=
  let lines := heuristicInputLines textBlock
  let INTRO_OFFSET : ℚ := 8
  let VOCAL_END := duration * (19/20)
  let availableTime := max 0 (VOCAL_END - INTRO_OFFSET)
  let avgLineDur := availableTime / ((max 1 lines.length : ℕ) : ℚ)
  ("\n".intercalate lines, heuristicLines avgLineDur lines INTRO_OFFSET, INTRO_OFFSET)

/-- Embedding of `generate_lyrics_map(lrc_text, duration=None)`: fall back to
the heuristic map when nothing parsed and a truthy duration is given,
substitute `GENERIC_LYRICS` when nothing parsed otherwise, and return the
joined line texts, the map, and `max(0, first_time - 4.0)`. -/
def generate_lyrics_map (lrcText : String) (duration : Option ℚ) :
    String × List MapEntry × ℚ :=
  let parsedLines := parse_lrc lrcText
  if parsedLines = [] ∧ durationTruthy duration then
    generate_heuristic_map lrcText (duration.getD 0)
  else
    let parsedLines := if parsedLines = [] then parse_lrc GENERIC_LYRICS else parsedLines
    let lyricsMap := lyricsLines parsedLines
    let firstTime : ℚ :=
      match lyricsMap with
      | e :: _ => e.time
      | [] => 0
    ("\n".intercalate (parsedLines.map LyricLine.text), lyricsMap, max 0 (firstTime - 4))

theorem lyrics_map_example :
    (generate_lyrics_map "[00:02.00] aa" none).2.1 =
      [⟨2, "aa", [⟨"aa", 2, 33/10⟩]⟩] := by with_unfolding_all decide

theorem heuristic_example :
    (generate_heuristic_map "aa" 60).2.1 = [⟨8, "aa", [⟨"aa", 8, 56⟩]⟩] := by
  with_unfolding_all decide

/-! Helper lemmas about the shared word-distribution loop `buildWords`. -/

/-- Contiguity relation between adjacent stored word timings. -/
def contiguous (w1 w2 : WordTiming) : Prop := w1.endTime = w2.start

lemma buildWords_head (tpu : ℚ) (p : String × ℚ) (ps : List (String × ℚ)) (cursor : ℚ) :
    (buildWords tpu (p :: ps) cursor).1.head? =
      some ⟨p.1, round2 cursor, round2 (cursor + p.2 * tpu)⟩ := by
  cases p; simp [buildWords]

lemma buildWords_chain (tpu : ℚ) :
    ∀ (pairs : List (String × ℚ)) (cursor : ℚ),
      List.Chain' contiguous (buildWords tpu pairs cursor).1 := by
  intro pairs
  induction pairs with
  | nil => intro cursor; simp [buildWords]
  | cons p ps ih =>
    intro cursor
    obtain ⟨w, wt⟩ := p
    rw [buildWords]
    refine List.chain'_cons'.2 ⟨?_, ih (cursor + wt * tpu)⟩
    intro y hy
    cases ps with
    | nil => simp [buildWords] at hy
    | cons q qs =>
      rw [buildWords_head] at hy
      simp only [Option.mem_def, Option.some_inj] at hy
      simp [contiguous, ← hy]

lemma buildWords_cursor (tpu : ℚ) :
    ∀ (pairs : List (String × ℚ)) (cursor : ℚ),
      (buildWords tpu pairs cursor).2 = cursor + (pairs.map Prod.snd).sum * tpu := by
  intro pairs
  induction pairs with
  | nil => intro cursor; simp [buildWords]
  | cons p ps ih =>
    intro cursor
    obtain ⟨w, wt⟩ := p
    rw [buildWords]
    simp only [ih, List.map_cons, List.sum_cons]
    ring

lemma round2_mono {x y : ℚ} (h : x ≤ y) : round2 x ≤ round2 y := by
  unfold round2
  have : round (x * 100) ≤ round (y * 100) := by
    rw [round_eq, round_eq]
    exact Int.floor_mono (by linarith)
  have h2 : ((round (x * 100) : ℤ) : ℚ) ≤ ((round (y * 100) : ℤ) : ℚ) := by exact_mod_cast this
  linarith

lemma buildWords_start_le_end (tpu : ℚ) (htpu : 0 ≤ tpu) :
    ∀ (pairs : List (String × ℚ)) (cursor : ℚ),
      (∀ p ∈ pairs, 0 ≤ p.2) →
      ∀ w ∈ (buildWords tpu pairs cursor).1, w.start ≤ w.endTime := by
  intro pairs
  induction pairs with
  | nil => intro cursor _ w hw; simp [buildWords] at hw
  | cons p ps ih =>
    intro cursor hnn w hw
    obtain ⟨s, wt⟩ := p
    rw [buildWords] at hw
    simp only [List.mem_cons] at hw
    rcases hw with hw | hw
    · subst hw
      have hwt : (0:ℚ) ≤ wt := hnn (s, wt) (List.mem_cons_self _ _)
      have : cursor ≤ cursor + wt * tpu := by nlinarith
      exact round2_mono this
    · exact ih (cursor + wt * tpu) (fun q hq => hnn q (List.mem_cons_of_mem _ hq)) w hw

/-- Every entry of the timestamped line loop stores a `buildWords` result. -/
lemma lyricsLines_words_shape :
    ∀ (parsed : List LyricLine), ∀ e ∈ lyricsLines parsed,
      ∃ tpu pairs cursor, e.words = (buildWords tpu pairs cursor).1 := by
  intro parsed
  induction parsed with
  | nil => intro e he; simp [lyricsLines] at he
  | cons line rest ih =>
    intro e he
    simp only [lyricsLines] at he
    by_cases hq : pySplit line.text = []
    · rw [if_pos hq] at he
      exact ih e he
    · rw [if_neg hq] at he
      rcases List.mem_cons.1 he with he | he
      · subst he
        exact ⟨_, _, _, rfl⟩
      · exact ih e he

/-- Every entry of the heuristic line loop stores a `buildWords` result. -/
lemma heuristicLines_words_shape (avg : ℚ) :
    ∀ (lines : List String) (cursor : ℚ), ∀ e ∈ heuristicLines avg lines cursor,
      ∃ tpu pairs c, e.words = (buildWords tpu pairs c).1 := by
  intro lines
  induction lines with
  | nil => intro cursor e he; simp [heuristicLines] at he
  | cons l rest ih =>
    intro cursor e he
    rw [heuristicLines] at he
    rcases List.mem_cons.1 he with he | he
    · subst he
      exact ⟨_, _, _, rfl⟩
    · exact ih _ e he

/-- CLAIM C6 helper: contiguity for the heuristic map. -/
lemma heuristic_map_chain (tb : String) (d : ℚ) :
    ∀ e ∈ (generate_heuristic_map tb d).2.1, List.Chain' contiguous e.words := by
  intro e he
  unfold generate_heuristic_map at he
  simp only at he
  obtain ⟨tpu, pairs, c, hw⟩ := heuristicLines_words_shape _ _ _ e he
  rw [hw]
  exact buildWords_chain _ _ _

/-- CLAIM C6: in every lyrics map produced by either timing mode, each line's
stored word timings are contiguous: `word[i].end == word[i+1].start` for every
consecutive pair, rounding included (both values are the same rounding of the
same cursor). -/
theorem C6_contiguous_word_timings :
    (∀ (lrc : String) (dur : Option ℚ), ∀ e ∈ (generate_lyrics_map lrc dur).2.1,
        List.Chain' contiguous e.words) ∧
    (∀ (tb : String) (d : ℚ), ∀ e ∈ (generate_heuristic_map tb d).2.1,
        List.Chain' contiguous e.words) := by
  constructor
  · intro lrc dur e he
    unfold generate_lyrics_map at he
    by_cases hc : parse_lrc lrc = [] ∧ durationTruthy (dur) = true
    · rw [if_pos hc] at he
      exact heuristic_map_chain _ _ e he
    · rw [if_neg hc] at he
      simp only at he
      obtain ⟨tpu, pairs, c, hw⟩ := lyricsLines_words_shape _ e he
      rw [hw]
      exact buildWords_chain _ _ _
  · exact heuristic_map_chain

/-- Witness for C6 at a concrete input: the two-word line `"hi ho"`. -/
theorem C6_witness :
    (⟨1, "hi ho", [⟨"hi", 1, 47/25⟩, ⟨"ho", 47/25, 11/4⟩]⟩ : MapEntry) ∈
        (generate_lyrics_map "[00:01.00] hi ho" none).2.1 ∧
      List.Chain' contiguous
        [(⟨"hi", 1, 47/25⟩ : WordTiming), ⟨"ho", 47/25, 11/4⟩] := by
  constructor
  · with_unfolding_all decide
  · exact C6_contiguous_word_timings.1 "[00:01.00] hi ho" none
      ⟨1, "hi ho", [⟨"hi", 1, 47/25⟩, ⟨"ho", 47/25, 11/4⟩]⟩ (by with_unfolding_all decide)

/-! Positivity facts about tokens and word weights, and non-emptiness of the
token lists feeding the word-distribution loops. -/

lemma pySplitAux_token_pos :
    ∀ (cs : List Char) (cur : List Char), ∀ t ∈ pySplitAux cs cur, 0 < t.length := by
  intro cs
  induction cs with
  | nil =>
    intro cur t ht
    by_cases h : cur = []
    · simp [pySplitAux, h] at ht
    · rw [pySplitAux, if_neg h] at ht
      rcases List.mem_singleton.1 ht with rfl
      simpa [String.length] using List.length_pos.2 (by simpa using h)
  | cons c rest ih =>
    intro cur t ht
    rw [pySplitAux] at ht
    by_cases hws : c.isWhitespace
    · rw [if_pos hws] at ht
      by_cases h : cur = []
      · rw [if_pos h] at ht
        exact ih [] t ht
      · rw [if_neg h] at ht
        rcases List.mem_cons.1 ht with rfl | ht
        · simpa [String.length] using List.length_pos.2 (by simpa using h)
        · exact ih [] t ht
    · rw [if_neg hws] at ht
      exact ih (c :: cur) t ht

lemma pySplit_token_pos (s : String) : ∀ t ∈ pySplit s, 0 < t.length :=
  pySplitAux_token_pos s.toList []

lemma pySplitAux_ne_nil_of_cur :
    ∀ (cs : List Char) (cur : List Char), cur ≠ [] → pySplitAux cs cur ≠ [] := by
  intro cs
  induction cs with
  | nil => intro cur h; rw [pySplitAux, if_neg h]; simp
  | cons c rest ih =>
    intro cur h
    rw [pySplitAux]
    by_cases hws : c.isWhitespace
    · rw [if_pos hws, if_neg h]; simp
    · rw [if_neg hws]
      exact ih (c :: cur) (by simp)

lemma pySplitAux_ne_nil :
    ∀ (cs : List Char) (cur : List Char), (∃ c ∈ cs, ¬ c.isWhitespace) →
      pySplitAux cs cur ≠ [] := by
  intro cs
  induction cs with
  | nil => rintro cur ⟨c, hc, _⟩; simp at hc
  | cons c rest ih =>
    rintro cur ⟨d, hd, hdw⟩
    rw [pySplitAux]
    by_cases hws : c.isWhitespace
    · rw [if_pos hws]
      have hdr : d ∈ rest := by
        rcases List.mem_cons.1 hd with rfl | h
        · exact absurd hws hdw
        · exact h
      by_cases h : cur = []
      · rw [if_pos h]; exact ih [] ⟨d, hdr, hdw⟩
      · rw [if_neg h]; simp
    · rw [if_neg hws]
      exact pySplitAux_ne_nil_of_cur rest (c :: cur) (by simp)

/-- A stripped non-empty line always splits into at least one word. -/
lemma pySplit_pyStrip_ne_nil (s : String) (h : pyStrip s ≠ "") :
    pySplit (pyStrip s) ≠ [] := by
  set m := ((s.toList.dropWhile Char.isWhitespace).reverse.dropWhile Char.isWhitespace) with hm
  have htl : (pyStrip s).toList = m.reverse := rfl
  have hmne : m ≠ [] := by
    intro hnil
    apply h
    have : (pyStrip s).toList = [] := by rw [htl, hnil]; rfl
    cases hs : pyStrip s with
    | mk data =>
      simp only [hs] at this ⊢
      simp only [String.toList] at this
      simp [this]
  have hpos : 0 < m.length := List.length_pos.2 hmne
  have hhead : ¬ (m.get ⟨0, hpos⟩).isWhitespace := by
    simpa using List.dropWhile_get_zero_not _ _ (by simpa [hm] using hpos)
  apply pySplitAux_ne_nil
  exact ⟨m.get ⟨0, hpos⟩, by rw [htl]; exact List.mem_reverse.2 (List.get_mem m 0 hpos), hhead⟩

lemma wordWeight_nonneg (w : String) : 0 ≤ wordWeight w := by
  unfold wordWeight
  have : (0:ℚ) ≤ (w.length : ℚ) := by positivity
  split_ifs <;> nlinarith

lemma wordWeight_pos (w : String) (h : 0 < w.length) : 0 < wordWeight w := by
  unfold wordWeight
  have : (0:ℚ) < (w.length : ℚ) := by exact_mod_cast h
  split_ifs <;> nlinarith

lemma weights_sum_nonneg (ws : List String) : 0 ≤ (calculate_word_weights ws).2 := by
  unfold calculate_word_weights
  simp only
  apply List.sum_nonneg
  intro x hx
  obtain ⟨w, _, rfl⟩ := List.mem_map.1 hx
  exact wordWeight_nonneg w

lemma twGuard_pos (x : ℚ) (hx : 0 ≤ x) : 0 < (if x = 0 then 1 else x) := by
  split_ifs with h
  · norm_num
  · exact lt_of_le_of_ne hx (Ne.symm h)

lemma zip_weights_nonneg (ws : List String) :
    ∀ p ∈ ws.zip (calculate_word_weights ws).1, 0 ≤ p.2 := by
  unfold calculate_word_weights
  simp only
  induction ws with
  | nil => intro p hp; simp at hp
  | cons w rest ih =>
    intro p hp
    simp only [List.map_cons, List.zip_cons_cons, List.mem_cons] at hp
    rcases hp with rfl | hp
    · exact wordWeight_nonneg w
    · exact ih p hp

lemma buildWords_length (tpu : ℚ) :
    ∀ (pairs : List (String × ℚ)) (cursor : ℚ),
      (buildWords tpu pairs cursor).1.length = pairs.length := by
  intro pairs
  induction pairs with
  | nil => intro cursor; simp [buildWords]
  | cons p ps ih =>
    intro cursor
    obtain ⟨w, wt⟩ := p
    simp [buildWords, ih]

lemma buildWords_fst_eq_nil (tpu : ℚ) (pairs : List (String × ℚ)) (cursor : ℚ) :
    (buildWords tpu pairs cursor).1 = [] ↔ pairs = [] := by
  cases pairs with
  | nil => simp [buildWords]
  | cons p ps => obtain ⟨w, wt⟩ := p; simp [buildWords]

lemma processLine_words_ne_nil (line : LyricLine) (g : ℚ)
    (hq : pySplit line.text ≠ []) : (processLine line g).1.words ≠ [] := by
  unfold processLine
  simp only
  intro hnil
  apply hq
  have := (buildWords_fst_eq_nil _ _ _).1 hnil
  cases hsp : pySplit line.text with
  | nil => rfl
  | cons w ws =>
    rw [hsp] at this
    unfold calculate_word_weights at this
    simp at this

lemma heuristicLine_words_ne_nil (avg : ℚ) (l : String) (c : ℚ)
    (hq : pySplit l ≠ []) : (heuristicLine avg l c).1.words ≠ [] := by
  unfold heuristicLine
  simp only
  intro hnil
  apply hq
  have := (buildWords_fst_eq_nil _ _ _).1 hnil
  cases hsp : pySplit l with
  | nil => rfl
  | cons w ws =>
    rw [hsp] at this
    unfold calculate_word_weights at this
    simp at this

lemma heuristicLines_words_ne_nil (avg : ℚ) :
    ∀ (lines : List String) (c : ℚ), (∀ l ∈ lines, pySplit l ≠ []) →
      ∀ e ∈ heuristicLines avg lines c, e.words ≠ [] := by
  intro lines
  induction lines with
  | nil => intro c _ e he; simp [heuristicLines] at he
  | cons l rest ih =>
    intro c hl e he
    rw [heuristicLines] at he
    rcases List.mem_cons.1 he with rfl | he
    · exact heuristicLine_words_ne_nil avg l c (hl l (by simp))
    · exact ih _ (fun x hx => hl x (List.mem_cons_of_mem _ hx)) e he

/-- Stored intervals of one timestamped line are non-collapsing whenever the
line's time budget is nonnegative. -/
lemma processLine_start_le_end (line : LyricLine) (timeGap : ℚ) (hg : 0 ≤ timeGap) :
    ∀ w ∈ (processLine line timeGap).1.words, w.start ≤ w.endTime := by
  intro w hw
  unfold processLine at hw
  simp only at hw
  set ww := calculate_word_weights (pySplit line.text) with hww
  have hdur : 0 ≤ min timeGap ((line.text.length : ℚ) * (3/20) + 1) := by
    apply le_min hg
    positivity
  have htw : 0 < (if ww.2 = 0 then 1 else ww.2) := twGuard_pos _ (weights_sum_nonneg _)
  have htpu : 0 ≤ min timeGap ((line.text.length : ℚ) * (3/20) + 1) /
      (if ww.2 = 0 then 1 else ww.2) := div_nonneg hdur htw.le
  exact buildWords_start_le_end _ htpu _ _ (zip_weights_nonneg _) w hw

/-- Stored intervals of one heuristic line are non-collapsing whenever the
average line duration is at least the 1.0 s line gap. -/
lemma heuristicLine_start_le_end (avg : ℚ) (l : String) (c : ℚ) (ha : 1 ≤ avg) :
    ∀ w ∈ (heuristicLine avg l c).1.words, w.start ≤ w.endTime := by
  intro w hw
  unfold heuristicLine at hw
  simp only at hw
  set ww := calculate_word_weights (pySplit l) with hww
  have htw : 0 < (if ww.2 = 0 then 1 else ww.2) := twGuard_pos _ (weights_sum_nonneg _)
  have htpu : 0 ≤ (avg - 1) / (if ww.2 = 0 then 1 else ww.2) :=
    div_nonneg (by linarith) htw.le
  exact buildWords_start_le_end _ htpu _ _ (zip_weights_nonneg _) w hw

/-- CLAIM C7 counterexample: with out-of-order timestamps the time gap is
negative and a stored word interval has `end < start` (here `[10, 5]`),
refuting `start < end` "for every line ordering". -/
theorem C7_counterexample :
    ∃ e ∈ (generate_lyrics_map "[00:10.00] hi\n[00:05.00] yo" none).2.1,
      ∃ w ∈ e.words, ¬ w.start < w.endTime := by
  refine ⟨⟨10, "hi", [⟨"hi", 10, 5⟩]⟩, by with_unfolding_all decide,
    ⟨"hi", 10, 5⟩, by with_unfolding_all decide, ?_⟩
  norm_num

/-- CLAIM C7, amended: every stored WordTiming satisfies `start ≤ end`
provided the per-line budgets are nonnegative — in timestamped mode when the
parsed line times are non-decreasing, in heuristic mode when the average line
duration is at least the 1.0 s line gap — and a line with zero words never
contributes a WordTiming (unconditionally, in both modes). -/
theorem C7_amended :
    (∀ parsed : List LyricLine, List.Chain' (fun a b => a.time ≤ b.time) parsed →
      ∀ e ∈ lyricsLines parsed, ∀ w ∈ e.words, w.start ≤ w.endTime) ∧
    (∀ (avg : ℚ) (lines : List String) (c : ℚ), 1 ≤ avg →
      ∀ e ∈ heuristicLines avg lines c, ∀ w ∈ e.words, w.start ≤ w.endTime) ∧
    (∀ parsed : List LyricLine, ∀ e ∈ lyricsLines parsed, e.words ≠ []) ∧
    (∀ (tb : String) (d : ℚ), ∀ e ∈ (generate_heuristic_map tb d).2.1, e.words ≠ []) := by
  refine ⟨?_, ?_, ?_, ?_⟩
  · intro parsed
    induction parsed with
    | nil => intro _ e he; simp [lyricsLines] at he
    | cons line rest ih =>
      intro hchain e he
      have hrest := (List.chain'_cons'.1 hchain).2
      cases rest with
      | nil =>
        simp only [lyricsLines] at he
        by_cases hq : pySplit line.text = []
        · rw [if_pos hq] at he
          simp [lyricsLines] at he
        · rw [if_neg hq] at he
          rcases List.mem_cons.1 he with rfl | he
          · exact processLine_start_le_end line 4 (by norm_num)
          · simp [lyricsLines] at he
      | cons next rtl =>
        simp only [lyricsLines] at he
        by_cases hq : pySplit line.text = []
        · rw [if_pos hq] at he
          exact ih hrest e he
        · rw [if_neg hq] at he
          rcases List.mem_cons.1 he with rfl | he
          · have hle := (List.chain'_cons'.1 hchain).1 next (by simp)
            exact processLine_start_le_end line _ (by linarith)
          · exact ih hrest e he
  · intro avg lines
    induction lines with
    | nil => intro c _ e he; simp [heuristicLines] at he
    | cons l rest ih =>
      intro c ha e he
      rw [heuristicLines] at he
      rcases List.mem_cons.1 he with rfl | he
      · exact heuristicLine_start_le_end avg l c ha
      · exact ih _ ha e he
  · intro parsed
    induction parsed with
    | nil => intro e he; simp [lyricsLines] at he
    | cons line rest ih =>
      intro e he
      simp only [lyricsLines] at he
      by_cases hq : pySplit line.text = []
      · rw [if_pos hq] at he
        exact ih e he
      · rw [if_neg hq] at he
        rcases List.mem_cons.1 he with rfl | he
        · exact processLine_words_ne_nil line _ hq
        · exact ih e he
  · intro tb d e he
    unfold generate_heuristic_map at he
    simp only at he
    have hlines : ∀ l ∈ heuristicInputLines tb, pySplit l ≠ [] := by
      intro l hl
      unfold heuristicInputLines at hl
      obtain ⟨hmem, hne⟩ := List.mem_filter.1 hl
      obtain ⟨s, _, rfl⟩ := List.mem_map.1 hmem
      exact pySplit_pyStrip_ne_nil s (by simpa using hne)
    exact heuristicLines_words_ne_nil _ _ _ hlines e he

/-- Witness for the amended C7 at concrete inputs in both modes. -/
theorem C7_witness :
    (List.Chain' (fun a b : LyricLine => a.time ≤ b.time) [⟨1, "hi"⟩] ∧
      (⟨"hi", 1, 23/10⟩ : WordTiming).start ≤ (⟨"hi", 1, 23/10⟩ : WordTiming).endTime) ∧
    ((1:ℚ) ≤ 49 ∧
      (⟨"aa", 8, 56⟩ : WordTiming).start ≤ (⟨"aa", 8, 56⟩ : WordTiming).endTime) ∧
    ((⟨1, "hi", [⟨"hi", 1, 23/10⟩]⟩ : MapEntry).words ≠ []) ∧
    ((⟨8, "aa", [⟨"aa", 8, 56⟩]⟩ : MapEntry).words ≠ []) := by
  refine ⟨⟨by simp, ?_⟩, ⟨by norm_num, ?_⟩, ?_, ?_⟩
  · exact C7_amended.1 [⟨1, "hi"⟩] (by simp) ⟨1, "hi", [⟨"hi", 1, 23/10⟩]⟩
      (by with_unfolding_all decide) _ (by with_unfolding_all decide)
  · exact C7_amended.2.1 49 ["aa"] 8 (by norm_num) ⟨8, "aa", [⟨"aa", 8, 56⟩]⟩
      (by with_unfolding_all decide) _ (by with_unfolding_all decide)
  · exact C7_amended.2.2.1 [⟨1, "hi"⟩] ⟨1, "hi", [⟨"hi", 1, 23/10⟩]⟩
      (by with_unfolding_all decide)
  · exact C7_amended.2.2.2 "aa" 60 ⟨8, "aa", [⟨"aa", 8, 56⟩]⟩
      (by with_unfolding_all decide)

/-! Exact span of a line's distributed time (the unrounded cursor advance),
used for claims C8 and C9. -/

lemma zip_map_snd (f : String → ℚ) :
    ∀ ws : List String, (ws.zip (ws.map f)).map Prod.snd = ws.map f := by
  intro ws
  induction ws with
  | nil => simp
  | cons w rest ih => simp [ih]

lemma weights_sum_pos (ws : List String) (h : ws ≠ [])
    (hpos : ∀ t ∈ ws, 0 < t.length) : 0 < (calculate_word_weights ws).2 := by
  cases ws with
  | nil => exact absurd rfl h
  | cons w rest =>
    unfold calculate_word_weights
    simp only [List.map_cons, List.sum_cons]
    have h1 : 0 < wordWeight w := wordWeight_pos w (hpos w (by simp))
    have h2 : 0 ≤ (rest.map wordWeight).sum := by
      apply List.sum_nonneg
      intro x hx
      obtain ⟨t, _, rfl⟩ := List.mem_map.1 hx
      exact wordWeight_nonneg t
    linarith

/-- The unrounded time distributed over a timestamped line is exactly its
`line_duration = min(time_gap, estimated_needed_time + 1.0)`. -/
lemma processLine_span (line : LyricLine) (g : ℚ) (hq : pySplit line.text ≠ []) :
    (processLine line g).2 - line.time =
      min g ((line.text.length : ℚ) * (3/20) + 1) := by
  unfold processLine
  simp only
  rw [buildWords_cursor]
  unfold calculate_word_weights
  simp only
  rw [zip_map_snd]
  have hpos : 0 < ((pySplit line.text).map wordWeight).sum := by
    have := weights_sum_pos (pySplit line.text) hq (pySplit_token_pos line.text)
    unfold calculate_word_weights at this
    simpa using this
  rw [if_neg (ne_of_gt hpos)]
  field_simp

/-- The unrounded time distributed over a heuristic line is exactly
`avg_line_dur - LINE_GAP`. -/
lemma heuristicLine_span (avg : ℚ) (l : String) (c : ℚ) (hq : pySplit l ≠ []) :
    (heuristicLine avg l c).2 - c = avg - 1 := by
  unfold heuristicLine
  simp only
  rw [buildWords_cursor]
  unfold calculate_word_weights
  simp only
  rw [zip_map_snd]
  have hpos : 0 < ((pySplit l).map wordWeight).sum := by
    have := weights_sum_pos (pySplit l) hq (pySplit_token_pos l)
    unfold calculate_word_weights at this
    simpa using this
  rw [if_neg (ne_of_gt hpos)]
  field_simp

/-- CLAIM C8 counterexample: for the lines `[00:00.004] hi` and
`[00:00.008] yo`, the first line's budget is `0.004` but the stored rounded
span is `0.01 - 0.0 = 0.01`, exceeding the budget. -/
theorem C8_counterexample :
    ((generate_lyrics_map "[00:00.004] hi\n[00:00.008] yo" none).2.1.head?.map
        MapEntry.words) = some [⟨"hi", 0, 1/100⟩] ∧
      ¬ ((1/100 : ℚ) - 0 ≤
          min ((8:ℚ)/1000 - 4/1000) (((2:ℕ) : ℚ) * (3/20) + 1)) := by
  constructor
  · with_unfolding_all decide
  · norm_num

/-- CLAIM C8, amended: the per-line budget is
`min(timeToNextLine, 0.15 * characterCount + 1.0)` with `4.0` in place of
`timeToNextLine` for the final line, and for every non-empty line the
*unrounded* span of its words (final cursor minus line start) equals that
budget exactly; the stored rounded span can exceed the budget (by at most one
cent on each end), as the counterexample shows. -/
theorem C8_amended :
    (∀ (line : LyricLine) (g : ℚ), pySplit line.text ≠ [] →
      (processLine line g).2 - line.time =
        min g ((line.text.length : ℚ) * (3/20) + 1)) ∧
    (∀ (l next : LyricLine) (rtl : List LyricLine),
      lyricsLines (l :: next :: rtl) =
        (if pySplit l.text = [] then lyricsLines (next :: rtl)
         else (processLine l (next.time - l.time)).1 :: lyricsLines (next :: rtl))) ∧
    (∀ l : LyricLine, lyricsLines [l] =
      (if pySplit l.text = [] then [] else [(processLine l 4).1])) := by
  refine ⟨processLine_span, ?_, ?_⟩
  · intro l next rtl
    simp [lyricsLines]
  · intro l
    simp [lyricsLines]

/-- Witness for the amended C8: line `"hi"` at `1.0` s with a `4.0` s gap has
budget `min 4 1.3 = 1.3`, and the unrounded span is exactly `1.3`. -/
theorem C8_witness :
    pySplit (LyricLine.text ⟨1, "hi"⟩) ≠ [] ∧
      (processLine ⟨1, "hi"⟩ 4).2 - (1:ℚ) =
        min (4:ℚ) (((LyricLine.text ⟨1, "hi"⟩).length : ℚ) * (3/20) + 1) := by
  refine ⟨by with_unfolding_all decide, ?_⟩
  exact C8_amended.1 ⟨1, "hi"⟩ 4 (by with_unfolding_all decide)

/-- CLAIM C9: heuristic mode with duration 60 and exactly two lyric lines has
intro offset 8, available vocal span `max 0 (60*0.95 - 8) = 49`, and each
line's words receive exactly `49/2 - 1 = 23.5` seconds before word-weight
distribution. -/
theorem C9_heuristic_split :
    ∀ tb : String, (heuristicInputLines tb).length = 2 →
      (generate_heuristic_map tb 60).2.2 = 8 ∧
      max (0:ℚ) (60 * (19/20) - 8) = 49 ∧
      (max (0:ℚ) (60 * (19/20) - 8)) /
          ((max 1 (heuristicInputLines tb).length : ℕ) : ℚ) - 1 = 47/2 ∧
      (∀ l ∈ heuristicInputLines tb, ∀ c : ℚ,
        (heuristicLine ((max (0:ℚ) (60 * (19/20) - 8)) /
            ((max 1 (heuristicInputLines tb).length : ℕ) : ℚ)) l c).2 - c = 47/2) := by
  intro tb h2
  have havg : (max (0:ℚ) (60 * (19/20) - 8)) /
      ((max 1 (heuristicInputLines tb).length : ℕ) : ℚ) = 49/2 := by
    rw [h2]
    norm_num
  refine ⟨rfl, by norm_num, by rw [havg]; norm_num, ?_⟩
  intro l hl c
  have hq : pySplit l ≠ [] := by
    unfold heuristicInputLines at hl
    obtain ⟨hmem, hne⟩ := List.mem_filter.1 hl
    obtain ⟨s, _, rfl⟩ := List.mem_map.1 hmem
    exact pySplit_pyStrip_ne_nil s (by simpa using hne)
  rw [heuristicLine_span _ _ _ hq, havg]
  norm_num

/-- Witness for C9 at the concrete block `"aa\nbb"`. -/
theorem C9_witness :
    (heuristicInputLines "aa\nbb").length = 2 ∧
      (generate_heuristic_map "aa\nbb" 60).2.2 = 8 := by
  refine ⟨by with_unfolding_all decide, ?_⟩
  exact (C9_heuristic_split "aa\nbb" (by with_unfolding_all decide)).1

/-- CLAIM C10: the normaliser substitutes table values as single tokens —
the output is the per-token image of the split token list (so it has exactly
one element per split token), and the token `"gonna"` becomes the single
output token `"going to"`, space included, not two tokens. -/
theorem C10_substitution_single_token :
    (∀ s : String, normalize_text s =
        (pySplit (stripPunct (pyLower s))).map
          (fun w => (replacements.lookup w).getD w)) ∧
    (∀ s : String,
        (normalize_text s).length = (pySplit (stripPunct (pyLower s))).length) ∧
    normalize_text "gonna" = ["going to"] := by
  refine ⟨fun s => rfl, fun s => ?_, by with_unfolding_all decide⟩
  rw [normalize_text]
  simp

/-! CLAIM C5: the LRC parser.  `specLrcLineOf` restates the claim's wording
for a single line — "begins with a `[MM:SS.ff]` tag (fractional part of 2 or 3
digits) followed by non-empty text after stripping, with time
`60*MM + SS` plus the fractional seconds" — and the claim theorem shows the
parser returns exactly the file-ordered `filterMap` of this per-line rule. -/

/-- Fractional tag part per the claim's words: two digits directly followed by
`]`, or three digits directly followed by `]`. -/
def specFrac : List Char → Option (ℚ × List Char)
  | [f1, f2, f3] =>
    if f1.isDigit ∧ f2.isDigit ∧ f3 = ']' then
      some (((dv f1 * 10 + dv f2 : ℕ) : ℚ) / 100, [])
    else none
  | f1 :: f2 :: f3 :: f4 :: tail =>
    if f1.isDigit ∧ f2.isDigit ∧ f3 = ']' then
      some (((dv f1 * 10 + dv f2 : ℕ) : ℚ) / 100, f4 :: tail)
    else if f1.isDigit ∧ f2.isDigit ∧ f3.isDigit ∧ f4 = ']' then
      some (((dv f1 * 100 + dv f2 * 10 + dv f3 : ℕ) : ℚ) / 1000, tail)
    else none
  | _ => none

/-- Claim-side reading of the characters of one line: a leading `[MM:SS.ff]`
tag followed by text that is non-empty after stripping yields a `LyricLine`
with time `60*MM + SS + fraction`; anything else is skipped. -/
def specLrcCore : List Char → Option LyricLine
  | lb :: m1 :: m2 :: co :: s1 :: s2 :: dot :: rest =>
    if lb = '[' ∧ m1.isDigit ∧ m2.isDigit ∧ co = ':' ∧ s1.isDigit ∧ s2.isDigit ∧ dot = '.' then
      match specFrac rest with
      | some (frac, tail) =>
        let t := pyStrip (String.mk tail)
        if t ≠ "" then
          some ⟨60 * ((dv m1 * 10 + dv m2 : ℕ) : ℚ) +
            ((dv s1 * 10 + dv s2 : ℕ) : ℚ) + frac, t⟩
        else none
      | none => none
    else none
  | _ => none

/-- Claim-side reading of one line. -/
def specLrcLineOf (line : String) : Option LyricLine := specLrcCore line.toList

lemma parseFrac_eq_specFrac : ∀ cs : List Char, parseFrac cs = specFrac cs := by
  intro cs
  match cs with
  | [] => rfl
  | [c1] => rfl
  | [c1, c2] =>
    by_cases h : c1.isDigit ∧ c2.isDigit
    · rw [parseFrac, if_pos h]; rfl
    · rw [parseFrac, if_neg h]; rfl
  | [c1, c2, c3] =>
    by_cases hd : c1.isDigit ∧ c2.isDigit
    · rw [parseFrac, if_pos hd]
      by_cases h3 : c3 = ']'
      · have hc : c1.isDigit = true ∧ c2.isDigit = true ∧ c3 = ']' := ⟨hd.1, hd.2, h3⟩
        rw [specFrac, if_pos hc, if_pos h3]
      · rw [specFrac, if_neg h3, if_neg (by tauto)]
    · rw [parseFrac, if_neg hd, specFrac, if_neg (by tauto)]
  | c1 :: c2 :: c3 :: c4 :: tail =>
    by_cases hd : c1.isDigit ∧ c2.isDigit
    · rw [parseFrac, if_pos hd]
      by_cases h34 : c4 = ']' ∧ c3.isDigit
      · have h3 : ¬ c3 = ']' := by
          intro h
          rw [h] at h34
          exact absurd h34.2 (by decide)
        have hc : c1.isDigit = true ∧ c2.isDigit = true ∧ c3.isDigit = true ∧ c4 = ']' :=
          ⟨hd.1, hd.2, h34.2, h34.1⟩
        rw [if_pos h34, specFrac, if_neg (by tauto), if_pos hc]
      · rw [if_neg h34]
        by_cases h3 : c3 = ']'
        · have hc : c1.isDigit = true ∧ c2.isDigit = true ∧ c3 = ']' := ⟨hd.1, hd.2, h3⟩
          rw [if_pos h3, specFrac, if_pos hc]
        · rw [if_neg h3, specFrac, if_neg (by tauto), if_neg (by tauto)]
    · rw [parseFrac, if_neg hd, specFrac, if_neg (by tauto), if_neg (by tauto)]

lemma specLrcCore_eq (cs : List Char) :
    specLrcCore cs =
      match matchLrcCore cs with
      | some (ts, text) =>
        if pyStrip text ≠ "" then some ⟨ts, pyStrip text⟩ else none
      | none => none := by
  match cs with
  | [] => rfl
  | [c1] => rfl
  | [c1, c2] => rfl
  | [c1, c2, c3] => rfl
  | [c1, c2, c3, c4] => rfl
  | [c1, c2, c3, c4, c5] => rfl
  | [c1, c2, c3, c4, c5, c6] => rfl
  | lb :: m1 :: m2 :: co :: s1 :: s2 :: dot :: rest =>
    by_cases hd : lb = '[' ∧ m1.isDigit = true ∧ m2.isDigit = true ∧ co = ':' ∧
        s1.isDigit = true ∧ s2.isDigit = true ∧ dot = '.'
    · rw [specLrcCore, if_pos hd, matchLrcCore, if_pos hd, ← parseFrac_eq_specFrac]
      cases hp : parseFrac rest with
      | none => rfl
      | some p =>
        obtain ⟨frac, tail⟩ := p
        simp only
        rw [mul_comm ((dv m1 * 10 + dv m2 : ℕ) : ℚ) 60]
    · rw [specLrcCore, if_neg hd, matchLrcCore, if_neg hd]

lemma specLrcLineOf_eq (line : String) :
    specLrcLineOf line =
      match matchLrc line with
      | some (ts, text) =>
        if pyStrip text ≠ "" then some ⟨ts, pyStrip text⟩ else none
      | none => none := specLrcCore_eq line.toList

theorem C5_parse_lrc_refines :
    ∀ block : String, parse_lrc block = (pySplitLines block).filterMap specLrcLineOf := by
  intro block
  unfold parse_lrc
  induction pySplitLines block with
  | nil => rfl
  | cons line rest ih =>
    rw [parse_lrc_lines, List.filterMap_cons, specLrcLineOf_eq]
    cases hm : matchLrc line with
    | none => simpa using ih
    | some p =>
      obtain ⟨ts, text⟩ := p
      dsimp only
      by_cases ht : pyStrip text ≠ ""
      · rw [if_pos ht, if_pos ht]
        simp [ih]
      · rw [if_neg ht, if_neg ht]
        simp [ih]

/-! Characterisation of the `replace`-run processing (claims C2 and C3). -/

/-- Credit awarded to one paired pair of present tokens, per similarity. -/
def pairCredit (q : ℚ) : ℚ :=
  if 17/20 < q then 1 else if 7/10 < q then 4/5 else 0

/-- Span emitted for one paired pair of present tokens, per similarity. -/
def pairSpan (q : ℚ) (u : String) : Span :=
  if 17/20 < q then ⟨.green, u⟩ else if 7/10 < q then ⟨.yellow, u⟩ else ⟨.redStrike, u⟩

/-- Credit contributed at index `idx` of a replace run. -/
def creditAt (sim : String → String → ℚ) (us ts : List String) (idx : Nat) : ℚ :=
  if us.getD idx "" ≠ "" ∧ ts.getD idx "" ≠ "" then
    pairCredit (sim (us.getD idx "") (ts.getD idx ""))
  else 0

/-- Spans contributed at index `idx` of a replace run. -/
def spanAt (sim : String → String → ℚ) (us ts : List String) (idx : Nat) : List Span :=
  if us.getD idx "" ≠ "" ∧ ts.getD idx "" ≠ "" then
    [pairSpan (sim (us.getD idx "") (ts.getD idx "")) (us.getD idx "")]
  else if us.getD idx "" ≠ "" then [⟨.redExtra, us.getD idx ""⟩]
  else []

lemma replaceStep_eq (sim : String → String → ℚ) (us ts : List String)
    (acc : ℚ × List Span) (idx : Nat) :
    replaceStep sim us ts acc idx =
      (acc.1 + creditAt sim us ts idx, acc.2 ++ spanAt sim us ts idx) := by
  unfold replaceStep creditAt spanAt pairCredit pairSpan
  dsimp only
  split_ifs <;> simp

lemma processReplace_fold (sim : String → String → ℚ) (us ts : List String) :
    ∀ (idxs : List ℕ) (acc : ℚ × List Span),
      idxs.foldl (replaceStep sim us ts) acc =
        (acc.1 + (idxs.map (creditAt sim us ts)).sum,
         acc.2 ++ (idxs.map (spanAt sim us ts)).flatten) := by
  intro idxs
  induction idxs with
  | nil => intro acc; simp
  | cons i rest ih =>
    intro acc
    rw [List.foldl_cons, replaceStep_eq, ih]
    simp [add_assoc]

lemma processReplace_eq (sim : String → String → ℚ) (us ts : List String) :
    processReplace sim us ts =
      (((List.range (max us.length ts.length)).map (creditAt sim us ts)).sum,
       ((List.range (max us.length ts.length)).map (spanAt sim us ts)).flatten) := by
  unfold processReplace
  rw [processReplace_fold]
  simp

lemma sum_range_vanish (f : ℕ → ℚ) (m n : ℕ) (h : m ≤ n)
    (hv : ∀ i, m ≤ i → f i = 0) :
    ((List.range n).map f).sum = ((List.range m).map f).sum := by
  induction n, h using Nat.le_induction with
  | base => rfl
  | succ n hmn ih =>
    rw [List.range_succ]
    simp only [List.map_append, List.sum_append, List.map_cons, List.map_nil,
      List.sum_cons, List.sum_nil]
    rw [hv n hmn, ih]
    ring

lemma flatten_map_singleton {α β : Type} (f : α → β) (l : List α) :
    (l.map (fun x => [f x])).flatten = l.map f := by
  induction l with
  | nil => rfl
  | cons x rest ih => simp [ih]

lemma getD_range_drop {α : Type} (d : α) :
    ∀ (l : List α) (n : ℕ),
      (List.range (l.length - n)).map (fun k => l.getD (n + k) d) = l.drop n := by
  intro l
  induction l with
  | nil => intro n; simp
  | cons x xs ih =>
    intro n
    cases n with
    | zero =>
      rw [List.length_cons, Nat.sub_zero, List.drop_zero, List.range_succ_eq_map,
        List.map_cons, List.map_map]
      congr 1
      have hih := ih 0
      rw [Nat.sub_zero, List.drop_zero] at hih
      have hcong : ∀ k ∈ List.range xs.length,
          ((fun k => (x :: xs).getD (0 + k) d) ∘ Nat.succ) k = xs.getD (0 + k) d := by
        intro k _
        show (x :: xs).getD (0 + (k + 1)) d = xs.getD (0 + k) d
        rw [Nat.zero_add, Nat.zero_add, List.getD_cons_succ]
      rw [List.map_congr_left hcong, hih]
    | succ n =>
      rw [List.length_cons, Nat.succ_sub_succ, List.drop_succ_cons, ← ih n]
      apply List.map_congr_left
      intro k _
      show (x :: xs).getD (n + 1 + k) d = xs.getD (n + k) d
      have hnk : n + 1 + k = (n + k) + 1 := by omega
      rw [hnk, List.getD_cons_succ]

/-- CLAIM C2: inside a replace run, each positionally paired pair of present
tokens contributes `+1.0` when the similarity exceeds `0.85`, `+0.8` when it
exceeds `0.70` but not `0.85`, and `0` otherwise; nothing else contributes
credit. -/
theorem C2_replace_pair_credit :
    ∀ (sim : String → String → ℚ) (us ts : List String),
      (∀ w ∈ us, w ≠ "") → (∀ w ∈ ts, w ≠ "") →
      (processReplace sim us ts).1 =
        ((List.range (min us.length ts.length)).map
          (fun idx => pairCredit (sim (us.getD idx "") (ts.getD idx "")))).sum := by
  intro sim us ts hus hts
  rw [processReplace_eq]
  simp only
  have hv : ∀ i, min us.length ts.length ≤ i → creditAt sim us ts i = 0 := by
    intro i hi
    unfold creditAt
    rw [if_neg]
    rintro ⟨hu, ht⟩
    rcases le_total us.length ts.length with hle | hle
    · rw [min_eq_left hle] at hi
      exact hu (List.getD_eq_default _ _ hi)
    · rw [min_eq_right hle] at hi
      exact ht (List.getD_eq_default _ _ hi)
  rw [sum_range_vanish _ _ _ min_le_max hv]
  apply congrArg List.sum
  apply List.map_congr_left
  intro idx hidx
  have hlt := List.mem_range.1 hidx
  have hu : us.getD idx "" ≠ "" := by
    have h1 : idx < us.length := lt_of_lt_of_le hlt (min_le_left _ _)
    rw [List.getD_eq_getElem _ _ h1]
    exact hus _ (List.getElem_mem _)
  have ht : ts.getD idx "" ≠ "" := by
    have h1 : idx < ts.length := lt_of_lt_of_le hlt (min_le_right _ _)
    rw [List.getD_eq_getElem _ _ h1]
    exact hts _ (List.getElem_mem _)
  unfold creditAt
  rw [if_pos ⟨hu, ht⟩]

/-- Witness for C2 at concrete segments: similarity 1 for the matching pair
`("aa","aa")` and 0 for `("bb","cc")` gives credit `1 + 0`. -/
theorem C2_witness :
    (∀ w ∈ (["aa", "bb"] : List String), w ≠ "") ∧
    (∀ w ∈ (["aa", "cc", "dd"] : List String), w ≠ "") ∧
    (processReplace (fun u t => if u = t then 1 else 0) ["aa", "bb"] ["aa", "cc", "dd"]).1 =
      ((List.range (min (["aa", "bb"] : List String).length
          (["aa", "cc", "dd"] : List String).length)).map
        (fun idx => pairCredit ((fun u t : String => if u = t then (1:ℚ) else 0)
          ((["aa", "bb"] : List String).getD idx "")
          ((["aa", "cc", "dd"] : List String).getD idx "")))).sum := by
  refine ⟨by decide, by decide, ?_⟩
  exact C2_replace_pair_credit (fun u t => if u = t then 1 else 0) ["aa", "bb"]
    ["aa", "cc", "dd"] (by decide) (by decide)

/-- CLAIM C3 counterexample: with performed run `["hello"]` and target run
`["xyz", "qrs"]` (one replace opcode), the annotated output contains only the
miss span for `"hello"` — the unmatched target-tail token `"qrs"` is not
tagged at all, contradicting the claim that tails of a longer *target*
sub-run are tagged as extra/performed-only content. -/
theorem C3_counterexample :
    (calculate_score_advanced (fun _ _ => 0) "hello" "xyz qrs").2 =
      Comparison.spans [⟨Tag.redStrike, "hello"⟩] := by
  with_unfolding_all decide

/-- CLAIM C3, amended: replace runs are paired positionally and tail tokens
earn no credit; a tail of the *performed* sub-run is tagged extra
(`text-red-500 text-xs`), while a tail of the *target* sub-run produces no
span at all in the annotated output. -/
theorem C3_replace_tails :
    ∀ (sim : String → String → ℚ) (us ts : List String),
      (∀ w ∈ us, w ≠ "") → (∀ w ∈ ts, w ≠ "") →
      (processReplace sim us ts).2 =
        ((List.range (min us.length ts.length)).map
          (fun idx => pairSpan (sim (us.getD idx "") (ts.getD idx "")) (us.getD idx ""))) ++
        ((us.drop ts.length).map (fun w => (⟨.redExtra, w⟩ : Span))) ∧
      (processReplace sim us ts).1 =
        ((List.range (min us.length ts.length)).map
          (fun idx => pairCredit (sim (us.getD idx "") (ts.getD idx "")))).sum := by
  intro sim us ts hus hts
  refine ⟨?_, C2_replace_pair_credit sim us ts hus hts⟩
  rw [processReplace_eq]
  simp only
  have hsplit : max us.length ts.length =
      min us.length ts.length + (max us.length ts.length - min us.length ts.length) := by
    omega
  rw [hsplit, List.range_add, List.map_append, List.flatten_append]
  congr 1
  · have : ∀ idx ∈ List.range (min us.length ts.length),
        spanAt sim us ts idx =
          [pairSpan (sim (us.getD idx "") (ts.getD idx "")) (us.getD idx "")] := by
      intro idx hidx
      have hlt := List.mem_range.1 hidx
      have hu : us.getD idx "" ≠ "" := by
        have h1 : idx < us.length := lt_of_lt_of_le hlt (min_le_left _ _)
        rw [List.getD_eq_getElem _ _ h1]
        exact hus _ (List.getElem_mem _)
      have ht : ts.getD idx "" ≠ "" := by
        have h1 : idx < ts.length := lt_of_lt_of_le hlt (min_le_right _ _)
        rw [List.getD_eq_getElem _ _ h1]
        exact hts _ (List.getElem_mem _)
      unfold spanAt
      rw [if_pos ⟨hu, ht⟩]
    rw [List.map_congr_left this, flatten_map_singleton]
  · rcases le_total us.length ts.length with hle | hle
    · have h1 : min us.length ts.length = us.length := min_eq_left hle
      have h2 : max us.length ts.length = ts.length := max_eq_right hle
      have hdrop : us.drop ts.length = [] := List.drop_eq_nil_of_le hle
      rw [hdrop, List.map_nil]
      have : ∀ k ∈ List.range (max us.length ts.length - min us.length ts.length),
          spanAt sim us ts (min us.length ts.length + k) = [] := by
        intro k _
        unfold spanAt
        have hu0 : us.getD (min us.length ts.length + k) "" = "" := by
          apply List.getD_eq_default
          rw [h1]
          omega
        rw [if_neg (by rintro ⟨hu, _⟩; exact hu hu0), if_neg (by intro hu; exact hu hu0)]
      rw [List.map_map, List.map_congr_left (by
        intro k hk
        exact this k hk)]
      simp
    · have h1 : min us.length ts.length = ts.length := min_eq_right hle
      have h2 : max us.length ts.length = us.length := max_eq_left hle
      have : ∀ k ∈ List.range (max us.length ts.length - min us.length ts.length),
          spanAt sim us ts (min us.length ts.length + k) =
            [⟨.redExtra, us.getD (ts.length + k) ""⟩] := by
        intro k hk
        have hkr := List.mem_range.1 hk
        have hu : us.getD (min us.length ts.length + k) "" ≠ "" := by
          have hlt : min us.length ts.length + k < us.length := by omega
          rw [List.getD_eq_getElem _ _ hlt]
          exact hus _ (List.getElem_mem _)
        have ht0 : ts.getD (min us.length ts.length + k) "" = "" := by
          apply List.getD_eq_default
          omega
        unfold spanAt
        rw [if_neg (by rintro ⟨_, ht⟩; exact ht ht0), if_pos hu, h1]
      rw [List.map_map, List.map_congr_left (by
        intro k hk
        exact this k hk), flatten_map_singleton]
      have hr : max us.length ts.length - min us.length ts.length =
          us.length - ts.length := by omega
      rw [hr]
      have hgd := getD_range_drop ("") us ts.length
      rw [← hgd, List.map_map]
      apply List.map_congr_left
      intro k _
      rfl

/-- Witness for the amended C3: performed run longer on one side. -/
theorem C3_witness :
    (∀ w ∈ (["aa", "bb", "cc"] : List String), w ≠ "") ∧
    (∀ w ∈ (["aa"] : List String), w ≠ "") ∧
    (processReplace (fun _ _ => 0) ["aa", "bb", "cc"] ["aa"]).2 =
      ((List.range (min (["aa", "bb", "cc"] : List String).length
          (["aa"] : List String).length)).map
        (fun idx => pairSpan ((fun _ _ : String => (0:ℚ))
            ((["aa", "bb", "cc"] : List String).getD idx "")
            ((["aa"] : List String).getD idx ""))
          ((["aa", "bb", "cc"] : List String).getD idx ""))) ++
      (((["aa", "bb", "cc"] : List String).drop (["aa"] : List String).length).map
        (fun w => (⟨.redExtra, w⟩ : Span))) := by
  refine ⟨by decide, by decide, ?_⟩
  exact (C3_replace_tails (fun _ _ => 0) ["aa", "bb", "cc"] ["aa"]
    (by decide) (by decide)).1

/-! Claim C1: the final score formula. -/

lemma pairCredit_nonneg (q : ℚ) : 0 ≤ pairCredit q := by
  unfold pairCredit
  split_ifs <;> norm_num

lemma creditAt_nonneg (sim : String → String → ℚ) (us ts : List String) (idx : Nat) :
    0 ≤ creditAt sim us ts idx := by
  unfold creditAt
  split_ifs
  · exact pairCredit_nonneg _
  · exact le_refl 0

lemma processReplace_fst_nonneg (sim : String → String → ℚ) (us ts : List String) :
    0 ≤ (processReplace sim us ts).1 := by
  rw [processReplace_eq]
  apply List.sum_nonneg
  intro x hx
  obtain ⟨i, _, rfl⟩ := List.mem_map.1 hx
  exact creditAt_nonneg sim us ts i

lemma equalFold_fst (ws : List String) :
    ∀ acc : ℚ × List Span,
      (ws.foldl (fun a w => (a.1 + 1, a.2 ++ [⟨Tag.green, w⟩])) acc).1 =
        acc.1 + ws.length := by
  induction ws with
  | nil => intro acc; simp
  | cons w rest ih =>
    intro acc
    rw [List.foldl_cons, ih]
    simp only [List.length_cons]
    push_cast
    ring

lemma deleteFold_fst (ws : List String) :
    ∀ acc : ℚ × List Span,
      (ws.foldl (fun a w => (a.1, a.2 ++ [⟨Tag.redExtra, w⟩])) acc).1 = acc.1 := by
  induction ws with
  | nil => intro acc; rfl
  | cons w rest ih => intro acc; rw [List.foldl_cons, ih]

lemma processOpcode_fst_mono (sim : String → String → ℚ) (u t : List String)
    (acc : ℚ × List Span) (op : Opcode) :
    acc.1 ≤ (processOpcode sim u t acc op).1 := by
  unfold processOpcode
  cases op.tag with
  | equal =>
    rw [equalFold_fst]
    have : (0:ℚ) ≤ ((sliceL u op.i1 op.i2).length : ℚ) := by positivity
    linarith
  | replace =>
    simp only
    have := processReplace_fst_nonneg sim (sliceL u op.i1 op.i2) (sliceL t op.j1 op.j2)
    linarith
  | insert => simp
  | delete => rw [deleteFold_fst]

lemma scoreSpans_fst_nonneg (sim : String → String → ℚ) (u t : List String) :
    0 ≤ (scoreSpans sim u t).1 := by
  unfold scoreSpans
  have : ∀ (ops : List Opcode) (acc : ℚ × List Span),
      acc.1 ≤ (ops.foldl (processOpcode sim u t) acc).1 := by
    intro ops
    induction ops with
    | nil => intro acc; exact le_refl _
    | cons op rest ih =>
      intro acc
      rw [List.foldl_cons]
      exact le_trans (processOpcode_fst_mono sim u t acc op) (ih _)
  simpa using this (get_opcodes u t) (0, [])

/-- CLAIM C1: with a non-empty normalized target, the returned score is
`min 100 (base + bonus)` where `base = floor(100 * weightedScore / |target|)`
and `bonus` is a flat `+10` exactly when `base < 50` and the token-count
ratio lies strictly inside `(0.8, 1.2)`; moreover when the bonus fires the
clamp is inactive, so the bonus never pushes the result past 100. -/
theorem C1_final_score :
    ∀ (sim : String → String → ℚ) (u t : String),
      normalize_text t ≠ [] →
      (calculate_score_advanced sim u t).1 =
        min 100
          (⌊100 * (scoreSpans sim (normalize_text u) (normalize_text t)).1 /
              ((normalize_text t).length : ℚ)⌋ +
           (if ⌊100 * (scoreSpans sim (normalize_text u) (normalize_text t)).1 /
                ((normalize_text t).length : ℚ)⌋ < 50 ∧
               (4/5 : ℚ) < ((normalize_text u).length : ℚ) / ((normalize_text t).length : ℚ) ∧
               ((normalize_text u).length : ℚ) / ((normalize_text t).length : ℚ) < 6/5 then
              (10:ℤ) else 0)) ∧
      (∀ hb : ⌊100 * (scoreSpans sim (normalize_text u) (normalize_text t)).1 /
            ((normalize_text t).length : ℚ)⌋ < 50 ∧
          (4/5 : ℚ) < ((normalize_text u).length : ℚ) / ((normalize_text t).length : ℚ) ∧
          ((normalize_text u).length : ℚ) / ((normalize_text t).length : ℚ) < 6/5,
        (calculate_score_advanced sim u t).1 =
          ⌊100 * (scoreSpans sim (normalize_text u) (normalize_text t)).1 /
            ((normalize_text t).length : ℚ)⌋ + 10 ∧
        (calculate_score_advanced sim u t).1 ≤ 100) := by
  intro sim u t ht
  have hn : (0:ℚ) < ((normalize_text t).length : ℚ) := by
    have : 0 < (normalize_text t).length := List.length_pos.2 ht
    exact_mod_cast this
  have hW := scoreSpans_fst_nonneg sim (normalize_text u) (normalize_text t)
  have hmain : (calculate_score_advanced sim u t).1 =
      min 100
        (⌊100 * (scoreSpans sim (normalize_text u) (normalize_text t)).1 /
            ((normalize_text t).length : ℚ)⌋ +
         (if ⌊100 * (scoreSpans sim (normalize_text u) (normalize_text t)).1 /
              ((normalize_text t).length : ℚ)⌋ < 50 ∧
             (4/5 : ℚ) < ((normalize_text u).length : ℚ) / ((normalize_text t).length : ℚ) ∧
             ((normalize_text u).length : ℚ) / ((normalize_text t).length : ℚ) < 6/5 then
            (10:ℤ) else 0)) := by
    unfold calculate_score_advanced
    rw [if_neg ht]
    dsimp only
    have hbase : (if (0:ℚ) < ((normalize_text t).length : ℚ) then
        pyTrunc ((scoreSpans sim (normalize_text u) (normalize_text t)).1 /
          ((normalize_text t).length : ℚ) * 100) else 0) =
        ⌊100 * (scoreSpans sim (normalize_text u) (normalize_text t)).1 /
          ((normalize_text t).length : ℚ)⌋ := by
      rw [if_pos hn]
      unfold pyTrunc
      rw [if_pos (mul_nonneg (div_nonneg hW hn.le) (by norm_num))]
      congr 1
      ring
    rw [hbase]
    congr 1
    have hiff : (⌊100 * (scoreSpans sim (normalize_text u) (normalize_text t)).1 /
          ((normalize_text t).length : ℚ)⌋ < 50 ∧
        0 < (normalize_text u).length ∧
        (4/5 : ℚ) < ((normalize_text u).length : ℚ) / ((normalize_text t).length : ℚ) ∧
        ((normalize_text u).length : ℚ) / ((normalize_text t).length : ℚ) < 6/5) ↔
        (⌊100 * (scoreSpans sim (normalize_text u) (normalize_text t)).1 /
          ((normalize_text t).length : ℚ)⌋ < 50 ∧
        (4/5 : ℚ) < ((normalize_text u).length : ℚ) / ((normalize_text t).length : ℚ) ∧
        ((normalize_text u).length : ℚ) / ((normalize_text t).length : ℚ) < 6/5) := by
      constructor
      · rintro ⟨a, _, c, d⟩; exact ⟨a, c, d⟩
      · rintro ⟨a, c, d⟩
        refine ⟨a, ?_, c, d⟩
        by_contra h
        have h0 : (normalize_text u).length = 0 := by omega
        rw [h0] at c
        norm_num at c
    rw [if_congr hiff rfl rfl]
    split_ifs with hcond
    · rfl
    · ring
  refine ⟨hmain, ?_⟩
  intro hb
  rw [hmain, if_pos hb]
  have h60 : ⌊100 * (scoreSpans sim (normalize_text u) (normalize_text t)).1 /
      ((normalize_text t).length : ℚ)⌋ + 10 < 60 := by
    have := hb.1
    omega
  constructor
  · rw [min_eq_right (by omega)]
  · rw [min_eq_right (by omega)]
    omega

/-- Witness for C1 at a concrete pair of strings. -/
theorem C1_witness :
    normalize_text "b c" ≠ [] ∧
      (calculate_score_advanced (fun _ _ => 0) "a b" "b c").1 =
        min 100
          (⌊100 * (scoreSpans (fun _ _ => 0) (normalize_text "a b") (normalize_text "b c")).1 /
              ((normalize_text "b c").length : ℚ)⌋ +
           (if ⌊100 * (scoreSpans (fun _ _ => 0) (normalize_text "a b")
                  (normalize_text "b c")).1 / ((normalize_text "b c").length : ℚ)⌋ < 50 ∧
               (4/5 : ℚ) < ((normalize_text "a b").length : ℚ) /
                 ((normalize_text "b c").length : ℚ) ∧
               ((normalize_text "a b").length : ℚ) /
                 ((normalize_text "b c").length : ℚ) < 6/5 then
              (10:ℤ) else 0)) := by
  refine ⟨by with_unfolding_all decide, ?_⟩
  exact (C1_final_score (fun _ _ => 0) "a b" "b c" (by with_unfolding_all decide)).1

/-! Claim C4: scoring a string against itself.  The core fact is that
`find_longest_match` on two equal token lists always returns the full
diagonal of the requested range, for any popularity predicate. -/

lemma chainOk_diag {l : List String} {pop : String → Bool} {lo hi i j : ℕ}
    (h : chainOk l l pop lo lo hi hi i j) :
    chainOk l l pop lo lo hi hi (min i j) (min i j) := by
  obtain ⟨h1, h2, h3, h4, h5, h6⟩ := h
  rcases le_total i j with hij | hij
  · rw [min_eq_left hij]
    exact ⟨h1, h2, h1, h2, rfl, by rw [h5]; exact h6⟩
  · rw [min_eq_right hij]
    exact ⟨h3, h4, h3, h4, rfl, h6⟩

lemma chainLen_pos_ok {a b : List String} {pop : String → Bool}
    {alo blo ahi bhi i j : ℕ}
    (h : 0 < chainLen a b pop alo blo ahi bhi i j) :
    chainOk a b pop alo blo ahi bhi i j := by
  cases i with
  | zero =>
    rw [chainLen] at h
    by_cases hok : chainOk a b pop alo blo ahi bhi 0 j
    · exact hok
    · rw [if_neg hok] at h; omega
  | succ n =>
    rw [chainLen] at h
    by_cases hok : chainOk a b pop alo blo ahi bhi (n+1) j
    · exact hok
    · rw [if_neg hok] at h; omega

lemma chainOk_chainLen_pos {a b : List String} {pop : String → Bool}
    {alo blo ahi bhi i j : ℕ}
    (h : chainOk a b pop alo blo ahi bhi i j) :
    0 < chainLen a b pop alo blo ahi bhi i j := by
  cases i with
  | zero => rw [chainLen, if_pos h]; omega
  | succ n =>
    rw [chainLen, if_pos h]
    split_ifs <;> omega

lemma chainLen_bounds {a b : List String} {pop : String → Bool} {alo blo ahi bhi : ℕ} :
    ∀ i j, 0 < chainLen a b pop alo blo ahi bhi i j →
      alo + chainLen a b pop alo blo ahi bhi i j ≤ i + 1 ∧
      blo + chainLen a b pop alo blo ahi bhi i j ≤ j + 1 ∧
      i < ahi ∧ j < bhi ∧ alo ≤ i ∧ blo ≤ j := by
  intro i
  induction i with
  | zero =>
    intro j h
    have hok := chainLen_pos_ok h
    have h1 := hok.1
    have h2 := hok.2.1
    have h3 := hok.2.2.1
    have h4 := hok.2.2.2.1
    rw [chainLen, if_pos hok]
    exact ⟨by omega, by omega, h2, h4, h1, h3⟩
  | succ n ih =>
    intro j h
    have hok := chainLen_pos_ok h
    have h1 := hok.1
    have h2 := hok.2.1
    have h3 := hok.2.2.1
    have h4 := hok.2.2.2.1
    rw [chainLen, if_pos hok]
    by_cases hbase : n + 1 = alo ∨ j = blo
    · rw [if_pos hbase]
      exact ⟨by omega, by omega, h2, h4, h1, h3⟩
    · rw [if_neg hbase]
      push_neg at hbase
      have hbj := hbase.2
      by_cases hz : 0 < chainLen a b pop alo blo ahi bhi n (j - 1)
      · obtain ⟨b1, b2, _, _, _, b6⟩ := ih (j - 1) hz
        exact ⟨by omega, by omega, h2, h4, h1, h3⟩
      · have hz0 : chainLen a b pop alo blo ahi bhi n (j - 1) = 0 := by omega
        rw [hz0]
        exact ⟨by omega, by omega, h2, h4, h1, h3⟩

lemma chainLen_exchange {l : List String} {pop : String → Bool} {lo hi : ℕ} :
    ∀ r c, chainLen l l pop lo lo hi hi r c ≤
      chainLen l l pop lo lo hi hi (min r c) (min r c) := by
  intro r
  induction r with
  | zero =>
    intro c
    by_cases hok : chainOk l l pop lo lo hi hi 0 c
    · have hd := chainOk_diag hok
      rw [Nat.min_eq_left (Nat.zero_le c)] at hd ⊢
      rw [chainLen, if_pos hok]
      exact chainOk_chainLen_pos hd
    · rw [chainLen, if_neg hok]
      omega
  | succ n ih =>
    intro c
    by_cases hok : chainOk l l pop lo lo hi hi (n+1) c
    · have hlc : lo ≤ c := hok.2.2.1
      rcases le_or_lt c n with hc | hc
      · -- min (n+1) c = c
        rw [Nat.min_eq_right (by omega : c ≤ n + 1)]
        have hd : chainOk l l pop lo lo hi hi c c := by
          have hm := chainOk_diag hok
          rwa [Nat.min_eq_right (by omega : c ≤ n + 1)] at hm
        rw [chainLen, if_pos hok]
        by_cases hbase : n + 1 = lo ∨ c = lo
        · rw [if_pos hbase]
          exact chainOk_chainLen_pos hd
        · rw [if_neg hbase]
          push_neg at hbase
          have hc1 : lo < c := lt_of_le_of_ne hlc (Ne.symm hbase.2)
          obtain ⟨c', rfl⟩ : ∃ c', c = c' + 1 := ⟨c - 1, by omega⟩
          rw [chainLen, if_pos hd, if_neg (by push_neg; exact ⟨hbase.2, hbase.2⟩)]
          have hmin : min n c' = c' := Nat.min_eq_right (by omega)
          have := ih c'
          rw [hmin] at this
          have heq : c' + 1 - 1 = c' := by omega
          rw [heq]
          omega
      · -- n + 1 ≤ c, min = n + 1
        rw [Nat.min_eq_left (by omega : n + 1 ≤ c)]
        have hd : chainOk l l pop lo lo hi hi (n+1) (n+1) := by
          have hm := chainOk_diag hok
          rwa [Nat.min_eq_left (by omega : n + 1 ≤ c)] at hm
        rw [chainLen, if_pos hok]
        by_cases hbase : n + 1 = lo ∨ c = lo
        · rw [if_pos hbase]
          exact chainOk_chainLen_pos hd
        · rw [if_neg hbase]
          push_neg at hbase
          rw [chainLen, if_pos hd, if_neg (by push_neg; exact ⟨hbase.1, hbase.1⟩)]
          have heq : n + 1 - 1 = n := by omega
          rw [heq]
          have hmin : min n (c - 1) = n := Nat.min_eq_left (by omega)
          have := ih (c - 1)
          rw [hmin] at this
          omega
    · rw [chainLen, if_neg hok]
      omega

lemma fStep_def (a b : List String) (pop : String → Bool) (alo blo ahi bhi : ℕ)
    (s : FMatch) (i j : ℕ) :
    fStep a b pop alo blo ahi bhi s i j =
      if s.size < chainLen a b pop alo blo ahi bhi i j then
        ⟨i + 1 - chainLen a b pop alo blo ahi bhi i j,
         j + 1 - chainLen a b pop alo blo ahi bhi i j,
         chainLen a b pop alo blo ahi bhi i j⟩
      else s := rfl

/-- Invariant of the inner column loop of `phase1` on equal lists: the best
match stays on the main diagonal and within bounds; after passing column `r`
the row's diagonal chain is dominated. -/
lemma inner_aux {l : List String} {pop : String → Bool} {lo hi : ℕ} (r : ℕ)
    (hr1 : lo ≤ r) (hr2 : r < hi) :
    ∀ (cnt c : ℕ) (s : FMatch),
      s.i = s.j → lo ≤ s.i → s.i + s.size ≤ hi →
      (∀ r', lo ≤ r' → r' < r → chainLen l l pop lo lo hi hi r' r' ≤ s.size) →
      (r < c → chainLen l l pop lo lo hi hi r r ≤ s.size) →
      ((((List.range' c cnt).foldl
          (fun s j => fStep l l pop lo lo hi hi s r j) s).i =
        ((List.range' c cnt).foldl
          (fun s j => fStep l l pop lo lo hi hi s r j) s).j) ∧
       lo ≤ ((List.range' c cnt).foldl
          (fun s j => fStep l l pop lo lo hi hi s r j) s).i ∧
       ((List.range' c cnt).foldl
          (fun s j => fStep l l pop lo lo hi hi s r j) s).i +
         ((List.range' c cnt).foldl
          (fun s j => fStep l l pop lo lo hi hi s r j) s).size ≤ hi ∧
       s.size ≤ ((List.range' c cnt).foldl
          (fun s j => fStep l l pop lo lo hi hi s r j) s).size ∧
       (∀ r', lo ≤ r' → r' < r →
         chainLen l l pop lo lo hi hi r' r' ≤
           ((List.range' c cnt).foldl
             (fun s j => fStep l l pop lo lo hi hi s r j) s).size) ∧
       (r < c + cnt →
         chainLen l l pop lo lo hi hi r r ≤
           ((List.range' c cnt).foldl
             (fun s j => fStep l l pop lo lo hi hi s r j) s).size)) := by
  intro cnt
  induction cnt with
  | zero =>
    intro c s hd hlo hb hprev hpass
    refine ⟨hd, hlo, hb, le_refl _, hprev, ?_⟩
    intro hrc
    exact hpass (by omega)
  | succ cnt ih =>
    intro c s hd hlo hb hprev hpass
    rw [List.range'_succ, List.foldl_cons]
    by_cases hupd : s.size < chainLen l l pop lo lo hi hi r c
    · -- an update can only happen on the diagonal
      have hkpos : 0 < chainLen l l pop lo lo hi hi r c := by omega
      obtain ⟨hb1, hb2, hbr, hbc, hbl, hbl2⟩ := chainLen_bounds r c hkpos
      have hcr : c = r := by
        by_contra hne
        rcases lt_or_gt_of_ne hne with hlt | hgt
        · -- c < r: dominated by an earlier row's diagonal
          have hex := @chainLen_exchange l pop lo hi r c
          rw [Nat.min_eq_right hlt.le] at hex
          have := hprev c hbl2 hlt
          omega
        · -- r < c: dominated by this row's diagonal, already passed
          have hex := @chainLen_exchange l pop lo hi r c
          rw [Nat.min_eq_left hgt.le] at hex
          have := hpass hgt
          omega
      subst hcr
      rw [fStep_def, if_pos hupd]
      have hres := ih (c + 1)
        ⟨c + 1 - chainLen l l pop lo lo hi hi c c,
         c + 1 - chainLen l l pop lo lo hi hi c c,
         chainLen l l pop lo lo hi hi c c⟩
        rfl (by dsimp only; omega) (by dsimp only; omega)
        (by
          intro r' h1 h2
          dsimp only
          have := hprev r' h1 h2
          omega)
        (by
          intro _
          dsimp only
          exact le_refl _)
      obtain ⟨r1, r2, r3, r4, r5, r6⟩ := hres
      refine ⟨r1, r2, r3, ?_, r5, ?_⟩
      · dsimp only at r4
        omega
      · intro _
        exact r6 (by omega)
    · rw [fStep_def, if_neg hupd]
      have hres := ih (c + 1) s hd hlo hb hprev
        (by
          intro hrc1
          rcases Nat.lt_or_ge r c with hlt | hge
          · exact hpass hlt
          · have hrc : c = r := by omega
            subst hrc
            omega)
      obtain ⟨r1, r2, r3, r4, r5, r6⟩ := hres
      refine ⟨r1, r2, r3, r4, r5, ?_⟩
      intro _
      exact r6 (by omega)

/-- Invariant of the outer row loop of `phase1` on equal lists. -/
lemma outer_aux {l : List String} {pop : String → Bool} {lo hi : ℕ} :
    ∀ (cnt r : ℕ) (s : FMatch), lo ≤ r → r + cnt ≤ hi →
      s.i = s.j → lo ≤ s.i → s.i + s.size ≤ hi →
      (∀ r', lo ≤ r' → r' < r → chainLen l l pop lo lo hi hi r' r' ≤ s.size) →
      ((((List.range' r cnt).foldl
          (fun s i => (List.range' lo (hi - lo)).foldl
            (fun s j => fStep l l pop lo lo hi hi s i j) s) s).i =
        ((List.range' r cnt).foldl
          (fun s i => (List.range' lo (hi - lo)).foldl
            (fun s j => fStep l l pop lo lo hi hi s i j) s) s).j) ∧
       lo ≤ ((List.range' r cnt).foldl
          (fun s i => (List.range' lo (hi - lo)).foldl
            (fun s j => fStep l l pop lo lo hi hi s i j) s) s).i ∧
       ((List.range' r cnt).foldl
          (fun s i => (List.range' lo (hi - lo)).foldl
            (fun s j => fStep l l pop lo lo hi hi s i j) s) s).i +
         ((List.range' r cnt).foldl
          (fun s i => (List.range' lo (hi - lo)).foldl
            (fun s j => fStep l l pop lo lo hi hi s i j) s) s).size ≤ hi) := by
  intro cnt
  induction cnt with
  | zero =>
    intro r s _ _ hd hlo hb _
    exact ⟨hd, hlo, hb⟩
  | succ cnt ih =>
    intro r s hr hcnt hd hlo hb hprev
    rw [List.range'_succ, List.foldl_cons]
    have hrhi : r < hi := by omega
    have hinner := inner_aux r hr hrhi (hi - lo) lo s hd hlo hb hprev
      (by intro hcon; omega)
    obtain ⟨i1, i2, i3, i4, i5, i6⟩ := hinner
    have hrow : chainLen l l pop lo lo hi hi r r ≤
        ((List.range' lo (hi - lo)).foldl
          (fun s j => fStep l l pop lo lo hi hi s r j) s).size :=
      i6 (by omega)
    exact ih (r + 1)
      ((List.range' lo (hi - lo)).foldl (fun s j => fStep l l pop lo lo hi hi s r j) s)
      (by omega) (by omega) i1 i2 i3
      (by
        intro r' h1 h2
        rcases Nat.lt_or_ge r' r with hlt | hge
        · exact le_trans (hprev r' h1 hlt) i4
        · have : r' = r := by omega
          rw [this]
          exact hrow)

/-- The main loop of `find_longest_match` on equal lists returns a diagonal,
in-bounds match. -/
lemma phase1_diag {l : List String} {pop : String → Bool} (lo hi : ℕ) (h : lo ≤ hi) :
    (phase1 l l pop lo hi lo hi).i = (phase1 l l pop lo hi lo hi).j ∧
    lo ≤ (phase1 l l pop lo hi lo hi).i ∧
    (phase1 l l pop lo hi lo hi).i + (phase1 l l pop lo hi lo hi).size ≤ hi := by
  unfold phase1
  exact outer_aux (hi - lo) lo ⟨lo, lo, 0⟩ (le_refl lo) (by omega) rfl (le_refl lo)
    (by dsimp only; omega) (by intro r' h1 h2; omega)

lemma extendBack_diag (l : List String) (lo : ℕ) :
    ∀ d k, lo ≤ d → extendBack l l lo lo d d k = ⟨lo, lo, k + (d - lo)⟩ := by
  intro d
  induction d with
  | zero =>
    intro k h
    have h0 : lo = 0 := by omega
    subst h0
    rfl
  | succ n ih =>
    intro k h
    rw [extendBack]
    by_cases hlo : lo < n + 1
    · rw [if_pos ⟨hlo, hlo, rfl⟩]
      simp only [Nat.add_sub_cancel]
      rw [ih (k + 1) (by omega)]
      congr 1
      omega
    · have hlo2 : lo = n + 1 := by omega
      rw [if_neg (by intro hcon; exact hlo hcon.1)]
      rw [hlo2]
      congr 1
      omega

lemma extendFwdF_diag (l : List String) (hi lo : ℕ) :
    ∀ fuel k, fuel = hi - (lo + k) →
      extendFwdF l l hi hi lo lo fuel k =
        ⟨lo, lo, if lo + k < hi then hi - lo else k⟩ := by
  intro fuel
  induction fuel with
  | zero =>
    intro k h
    rw [extendFwdF, if_neg (by omega : ¬ lo + k < hi)]
  | succ f ih =>
    intro k h
    have hlt : lo + k < hi := by omega
    rw [extendFwdF, if_pos ⟨hlt, hlt, rfl⟩, ih (k + 1) (by omega)]
    by_cases h2 : lo + (k + 1) < hi
    · rw [if_pos h2, if_pos hlt]
    · rw [if_neg h2, if_pos hlt]
      congr 1
      omega

/-- On equal lists `find_longest_match` returns the full diagonal of the
requested (well-formed) range, for any popularity predicate: phase 1 lands on
the diagonal and the two extension loops, which compare only element
equality, sweep it to the whole range. -/
lemma find_longest_match_equal {l : List String} {pop : String → Bool}
    (lo hi : ℕ) (h : lo ≤ hi) :
    find_longest_match l l pop lo hi lo hi = ⟨lo, lo, hi - lo⟩ := by
  unfold find_longest_match
  obtain ⟨hd, hlo, hbound⟩ := @phase1_diag l pop lo hi h
  dsimp only
  rw [← hd]
  rw [extendBack_diag l lo (phase1 l l pop lo hi lo hi).i (phase1 l l pop lo hi lo hi).size hlo]
  dsimp only
  rw [extendFwd, extendFwdF_diag l hi lo _ _ rfl]
  congr 1
  by_cases hc : lo + ((phase1 l l pop lo hi lo hi).size +
      ((phase1 l l pop lo hi lo hi).i - lo)) < hi
  · rw [if_pos hc]
  · rw [if_neg hc]
    omega

lemma matchingBlocksRec_nil (l : List String) (pop : String → Bool) (fuel lo : ℕ) :
    matchingBlocksRec l l pop fuel lo lo lo lo = [] := by
  cases fuel with
  | zero => rfl
  | succ f =>
    rw [matchingBlocksRec, find_longest_match_equal lo lo (le_refl lo)]
    simp

lemma matchingBlocksRec_equal (l : List String) (pop : String → Bool)
    (fuel lo hi : ℕ) (h : lo < hi) :
    matchingBlocksRec l l pop (fuel + 1) lo hi lo hi = [⟨lo, lo, hi - lo⟩] := by
  rw [matchingBlocksRec, find_longest_match_equal lo hi h.le]
  dsimp only
  rw [if_neg (by omega)]
  have hplus : lo + (hi - lo) = hi := by omega
  rw [matchingBlocksRec_nil, hplus, matchingBlocksRec_nil]
  rfl

/-- On equal non-empty token lists the opcodes are a single full `equal`. -/
lemma get_opcodes_equal (L : List String) (h : L ≠ []) :
    get_opcodes L L = [⟨.equal, 0, L.length, 0, L.length⟩] := by
  have hn : 0 < L.length := List.length_pos.2 h
  unfold get_opcodes get_matching_blocks
  have hfuel : L.length + L.length + 1 = (L.length + L.length) + 1 := rfl
  rw [hfuel, matchingBlocksRec_equal L (isPopular L) (L.length + L.length) 0 L.length hn]
  simp only [Nat.sub_zero]
  rw [mergeGo, if_pos ⟨rfl, rfl⟩, mergeGo,
    if_pos (by omega : ¬ ((0:ℕ) + L.length = 0))]
  simp only [Nat.zero_add, List.nil_append, List.cons_append]
  rw [opcodesGo, opcodesGo, opcodesGo]
  simp [hn.ne']

/-- The weighted score of a token list against itself is its length. -/
lemma scoreSpans_self (sim : String → String → ℚ) (L : List String) (h : L ≠ []) :
    (scoreSpans sim L L).1 = (L.length : ℚ) := by
  unfold scoreSpans
  rw [get_opcodes_equal L h, List.foldl_cons, List.foldl_nil]
  unfold processOpcode
  dsimp only
  have hs : sliceL L 0 L.length = L := by
    unfold sliceL
    simp
  rw [hs, equalFold_fst]
  simp

/-- CLAIM C4 counterexample: scoring the empty string against itself gives 0,
not 100 (the empty-target early return fires because the normalized token
sequence is empty). -/
theorem C4_counterexample :
    (calculate_score_advanced (fun _ _ => 0) "" "").1 = 0 ∧ (0:ℤ) ≠ 100 := by
  refine ⟨by with_unfolding_all decide, by decide⟩

/-- CLAIM C4, amended: for every similarity function and every string whose
normalized token sequence is non-empty, scoring the string against itself
yields exactly 100. -/
theorem C4_self_score (sim : String → String → ℚ) (s : String)
    (h : normalize_text s ≠ []) :
    (calculate_score_advanced sim s s).1 = 100 := by
  unfold calculate_score_advanced
  rw [if_neg h]
  dsimp only
  rw [scoreSpans_self sim _ h]
  have hn : (0:ℚ) < ((normalize_text s).length : ℚ) := by
    have : 0 < (normalize_text s).length := List.length_pos.2 h
    exact_mod_cast this
  rw [if_pos hn]
  have hdiv : ((normalize_text s).length : ℚ) / ((normalize_text s).length : ℚ) * 100 = 100 := by
    field_simp
  rw [hdiv]
  have htr : pyTrunc 100 = 100 := by
    unfold pyTrunc
    rw [if_pos (by norm_num)]
    norm_num
  rw [htr]
  rw [if_neg (by push_neg; intro hcon; omega)]
  rfl

/-- Witness for the amended C4 at a concrete string. -/
theorem C4_witness :
    normalize_text "hello world" ≠ [] ∧
      (calculate_score_advanced (fun _ _ => 0) "hello world" "hello world").1 = 100 := by
  refine ⟨by with_unfolding_all decide, ?_⟩
  exact C4_self_score (fun _ _ => 0) "hello world" (by with_unfolding_all decide)

end Karaoke
